import Mathlib

/-!
Verification of the idaia FreeCAD addon's core string-processing components.

The Python sources are shallowly embedded over `List Char` / `String`:

* `src/addon/idaia/core/executor.py` — markdown-fence stripping, trailing-brace
  repair, the deny-list guard (`_normalize`, `_assert_safe`, `safe_run`);
* `src/addon/idaia/core/llm_client.py` — code normalization (`_normalize_code`),
  base-URL normalization, the JSON-recovery ladder of `ask_llm`, and `ping`;
* `src/idaiavibedesign/AIAgent.py` — dimension extraction, the `_call_llm`
  retry loop, `process_prompt` history bookkeeping;
* `src/idaiavibedesign/VibeDesignCommands.py` — `PromptParser.extract_dimensions`;
* `src/idaiavibedesign/ParametricManager.py` — variable-name sanitization and
  uniqueness (`create_variable`, `_variable_exists`).

Modelling conventions: Python `str` is `String` (sequences of Unicode code
points, matching Lean `Char`); character classes (`\w`, `\s`, `str.lower`,
`str.isdigit`) are modelled for the ASCII range that the addon's inputs use;
Python floats are modelled as rationals `ℚ`; the HTTP transport, the FreeCAD
document API, `ast.parse` and `exec` are external collaborators and appear as
explicit parameters or as the `Except.ok` "proceeds to execution" outcome.
-/

namespace Idaia

/-! ## Python string primitives -/

/-- Characters Python's `str.strip()` removes (ASCII whitespace). -/
def isPyWs (c : Char) : Bool :=
  c = ' ' || c = '\t' || c = '\n' || c = '\r' || c = '\x0b' || c = '\x0c'

/-- Left strip by a character predicate (Python `str.lstrip`). -/
def lstripBy (p : Char → Bool) (l : List Char) : List Char :=
  l.dropWhile p

/-- Right strip by a character predicate (Python `str.rstrip`). -/
def rstripBy (p : Char → Bool) (l : List Char) : List Char :=
  (l.reverse.dropWhile p).reverse

/-- Strip both ends by a character predicate. -/
def stripBy (p : Char → Bool) (l : List Char) : List Char :=
  rstripBy p (lstripBy p l)

/-- Python `str.strip()` with no argument. -/
def pyStrip (l : List Char) : List Char :=
  stripBy isPyWs l

/-- Python `str.strip(chars)`: strip any character from the given set. -/
def stripSet (cs : List Char) (l : List Char) : List Char :=
  stripBy (fun c => cs.contains c) l

/-- Characters that are line boundaries for Python `str.splitlines`. -/
def isBreakChar (c : Char) : Bool :=
  c = '\n' || c = '\r' || c = '\x0b' || c = '\x0c' ||
  c = '\x1c' || c = '\x1d' || c = '\x1e' || c = '\x85' ||
  c = '\u2028' || c = '\u2029'

/-- Split at every line boundary (treating CR-LF as a single boundary),
keeping a possibly-empty chunk after a trailing boundary; the raw worker
behind `splitlinesPy`. -/
def breakSplit : List Char → List (List Char)
  | [] => [[]]
  | [c] => if isBreakChar c then [[], []] else [[c]]
  | c :: c2 :: rest =>
    if c = '\r' ∧ c2 = '\n' then
      [] :: breakSplit rest
    else if isBreakChar c then
      [] :: breakSplit (c2 :: rest)
    else
      (c :: (breakSplit (c2 :: rest)).headI) :: (breakSplit (c2 :: rest)).tail

/-- Python `str.splitlines()`: like `breakSplit`, but the empty string gives
`[]` and a trailing line boundary does not open a final empty line. -/
def splitlinesPy (l : List Char) : List (List Char) :=
  match l.getLast? with
  | none => []
  | some c => if isBreakChar c then (breakSplit l).dropLast else breakSplit l

/-- Literal-prefix test (Python `str.startswith` on a list of code points). -/
def startsWithL : List Char → List Char → Bool
  | [], _ => true
  | _ :: _, [] => false
  | p :: ps, c :: cs => p = c && startsWithL ps cs

/-- Backtick character (code point 96). -/
def backtickChar : Char := Char.ofNat 96

/-- Opening-brace character (code point 123). -/
def lbraceChar : Char := Char.ofNat 123

/-- Closing-brace character (code point 125). -/
def rbraceChar : Char := Char.ofNat 125

/-- Apostrophe character (code point 39). -/
def apostropheChar : Char := Char.ofNat 39

/-- Double-quote character (code point 34). -/
def quoteChar : Char := Char.ofNat 34

/-- Three backticks, the markdown fence marker. -/
def backticks3 : List Char := List.replicate 3 backtickChar

/-- Python word characters for `\w` and `\b` (ASCII range). -/
def isWordChar (c : Char) : Bool :=
  c.isAlphanum || c = '_'

/-- A regex word boundary holds before the current position given the
previous character (`none` at start of string). -/
def boundaryBefore : Option Char → Bool
  | none => true
  | some c => !isWordChar c

/-- A regex word boundary holds after a match given the remaining input. -/
def boundaryAfterL : List Char → Bool
  | [] => true
  | c :: _ => !isWordChar c

/-- Generic regex-style search: try the position matcher `f` at every
position, left to right, tracking the previous character for `\b`. -/
def searchAt (f : Option Char → List Char → Bool) : Option Char → List Char → Bool
  | prev, [] => f prev []
  | prev, c :: r => f prev (c :: r) || searchAt f (some c) r

/-- Position matcher for `\b w \b` (a whole word). -/
def wordAt (w : List Char) (prev : Option Char) (l : List Char) : Bool :=
  boundaryBefore prev && startsWithL w l && boundaryAfterL (l.drop w.length)

/-- Search for `\b w \b` anywhere in the input (Python `re.search`). -/
def searchWord (w : List Char) (l : List Char) : Bool :=
  searchAt (wordAt w) none l

end Idaia

namespace Idaia

/-- Byte-order mark, removed by both normalizers. -/
def bomChar : Char := '\uFEFF'

/-- The character set of Python `strip("` \n\r\t")` used by both normalizers. -/
def tickWsSet : List Char := "` \n\r\t".data

namespace Executor

/-- Embeds `_strip_fences` from `core/executor.py` (an identical copy lives in
`core/llm_client.py`): strip the whole string, and if it starts with three
backticks drop the first line and, when the last line strips to three
backticks, the last line too, then strip the rejoined text. -/
def stripFences (s : List Char) : List Char :=
  let t := pyStrip s
  if t.take 3 = backticks3 then
    let lines := (splitlinesPy t).drop 1
    let lines2 :=
      match lines.getLast? with
      | some lastLine => if pyStrip lastLine = backticks3 then lines.dropLast else lines
      | none => lines
    pyStrip (List.intercalate ['\n'] lines2)
  else t

/-- Loop body of `_trim_trailing_unmatched_braces`, acting on the reversed
string: as long as the (reversed) head is a closing brace, drop it and the
whitespace after it. Fuel bounds the iteration count; the string length
always suffices. -/
def trimBraceAux : ℕ → List Char → List Char
  | 0, l => l
  | _ + 1, [] => []
  | fuel + 1, c :: r =>
    if c = rbraceChar then trimBraceAux fuel (r.dropWhile isPyWs) else c :: r

/-- Embeds `_trim_trailing_unmatched_braces` (identical copies in
`core/executor.py` and `core/llm_client.py`): right-strip, and when no
opening brace occurs anywhere, repeatedly remove a trailing closing brace
followed by a right-strip. -/
def trimTrailingUnmatchedBraces (t : List Char) : List Char :=
  let u := rstripBy isPyWs t
  if u.contains lbraceChar then u
  else (trimBraceAux u.length u.reverse).reverse

/-- Embeds `_normalize` from `core/executor.py`: strip markdown fences,
remove byte-order marks, strip backticks and whitespace from the ends,
repair trailing unmatched braces, and strip. -/
def normalizeL (code : List Char) : List Char :=
  let s1 := stripFences code
  let s2 := s1.filter (fun c => c != bomChar)
  let s3 := stripSet tickWsSet s2
  let s4 := trimTrailingUnmatchedBraces s3
  pyStrip s4

/-- String-level wrapper for `normalizeL`. -/
def normalize (s : String) : String :=
  ⟨normalizeL s.data⟩

/-- Position matcher for `__\w+__`: a double underscore, at least one word
character, then another double underscore (underscores are word characters,
so the regex backtracks; a match needs an adjacent underscore pair at least
one character into the word-character run). -/
def dunderAt (_ : Option Char) (l : List Char) : Bool :=
  startsWithL ['_', '_'] l &&
    hasAdjUnderscore (((l.drop 2).takeWhile isWordChar).drop 1)
where
  hasAdjUnderscore : List Char → Bool
    | c1 :: c2 :: rest => (c1 = '_' && c2 = '_') || hasAdjUnderscore (c2 :: rest)
    | _ => false

/-- Position matcher for `\bw\s*\(` (used for `eval`, `exec`, `open`). -/
def callAt (w : List Char) (prev : Option Char) (l : List Char) : Bool :=
  boundaryBefore prev && startsWithL w l &&
    startsWithL ['('] ((l.drop w.length).dropWhile isPyWs)

/-- Position matcher for `\bw\.` (used for `os.` and `sys.`). -/
def dotAt (w : List Char) (prev : Option Char) (l : List Char) : Bool :=
  boundaryBefore prev && startsWithL (w ++ ['.']) l

/-- Position matcher for `\brequests?\b`. -/
def reqAt (prev : Option Char) (l : List Char) : Bool :=
  boundaryBefore prev && startsWithL "request".data l &&
    (match l.drop 7 with
     | 's' :: r2 => boundaryAfterL r2
     | r => boundaryAfterL r)

/-- Position matcher for `\bfrom\s+\w+\s+import\b`. -/
def fromImportAt (prev : Option Char) (l : List Char) : Bool :=
  boundaryBefore prev && startsWithL "from".data l &&
    (let r1 := l.drop 4
     let ws1 := r1.takeWhile isPyWs
     !ws1.isEmpty &&
       (let r2 := r1.drop ws1.length
        let wd := r2.takeWhile isWordChar
        !wd.isEmpty &&
          (let r3 := r2.drop wd.length
           let ws2 := r3.takeWhile isPyWs
           !ws2.isEmpty &&
             (let r4 := r3.drop ws2.length
              startsWithL "import".data r4 && boundaryAfterL (r4.drop 6)))))

/-- Embeds `BANNED_PATTERNS` from `core/executor.py`, in source order: each
regex source string paired with its position matcher. -/
def bannedTable : List (String × (Option Char → List Char → Bool)) :=
  [ ("\\bimport\\b", wordAt "import".data),
    ("\\bfrom\\s+\\w+\\s+import\\b", fromImportAt),
    ("__\\w+__", dunderAt),
    ("\\beval\\s*\\(", callAt "eval".data),
    ("\\bexec\\s*\\(", callAt "exec".data),
    ("\\bopen\\s*\\(", callAt "open".data),
    ("\\bos\\.", dotAt "os".data),
    ("\\bsys\\.", dotAt "sys".data),
    ("\\bsubprocess\\b", wordAt "subprocess".data),
    ("\\bsocket\\b", wordAt "socket".data),
    ("\\brequests?\\b", reqAt),
    ("\\burllib\\b", wordAt "urllib".data),
    ("\\bhttpx\\b", wordAt "httpx".data),
    ("\\bctypes\\b", wordAt "ctypes".data),
    ("\\bpathlib\\b", wordAt "pathlib".data),
    ("\\bshutil\\b", wordAt "shutil".data),
    ("\\bthreading\\b", wordAt "threading".data),
    ("\\basyncio\\b", wordAt "asyncio".data) ]

/-- First banned pattern (by source order) matching the code, if any; the
patterns are compiled with `re.IGNORECASE`, modelled by lowercasing the
input (ASCII range). -/
def bannedFind (l : List Char) : Option String :=
  let ll := l.map Char.toLower
  bannedTable.findSome? (fun pf => if searchAt pf.2 none ll then some pf.1 else none)

/-- Failure outcomes of `_assert_safe` (each a `ValueError` in the source,
distinguished here by their messages' content). -/
inductive GuardError where
  | emptyCode : GuardError
  | tooLong (actual max : ℕ) : GuardError
  | blocked (pattern : String) : GuardError
deriving DecidableEq

/-- Embeds `MAX_CODE_LEN` from `core/executor.py`. -/
def MAX_CODE_LEN : ℕ := 5000

/-- Embeds `_assert_safe`: empty check, length check against
`MAX_CODE_LEN`, then the deny-list scan, in source order. -/
def assertSafe (l : List Char) : Option GuardError :=
  if (pyStrip l).isEmpty then some .emptyCode
  else if l.length > MAX_CODE_LEN then some (.tooLong l.length MAX_CODE_LEN)
  else
    match bannedFind l with
    | some pat => some (.blocked pat)
    | none => none

/-- Embeds the guard phase of `safe_run`: normalize, then `_assert_safe`.
`Except.ok s` means every guard check passed and `safe_run` proceeds to
`ast.parse` and `exec` on the normalized snippet `s` (execution itself is a
host effect outside the embedding); `Except.error e` means `safe_run`
raises before any execution. -/
def safe_run_guard (code : String) : Except GuardError String :=
  let s := normalizeL code.data
  match assertSafe s with
  | some e => .error e
  | none => .ok ⟨s⟩

end Executor

end Idaia

namespace Idaia

/-- Suffix test (Python `str.endswith`). -/
def endsWithL (suffix l : List Char) : Bool :=
  startsWithL suffix.reverse l.reverse

/-- First occurrence of a (nonempty) substring: returns the part before it
and the part after it. -/
def breakOnSubstr (sep : List Char) : List Char → Option (List Char × List Char)
  | [] => none
  | c :: r =>
    if startsWithL sep (c :: r) then some ([], (c :: r).drop sep.length)
    else (breakOnSubstr sep r).map (fun p => (c :: p.1, p.2))

/-- Substring containment (Python `in` on strings, nonempty needle). -/
def containsSubstr (sep l : List Char) : Bool :=
  (breakOnSubstr sep l).isSome

/-- Python `str.split(sep, maxsplit)` for a nonempty separator. -/
def splitSubstrMax (sep : List Char) : ℕ → List Char → List (List Char)
  | 0, l => [l]
  | k + 1, l =>
    match breakOnSubstr sep l with
    | none => [l]
    | some (before, after) => before :: splitSubstrMax sep k after

/-! ## Values produced by Python `json.loads`

Numbers keep their lexeme: no claim depends on numeric JSON values, only on
which texts parse and on string-valued fields. -/

inductive JsonVal where
  | null : JsonVal
  | bool (b : Bool) : JsonVal
  | num (lexeme : String) : JsonVal
  | str (s : String) : JsonVal
  | arr (elems : List JsonVal) : JsonVal
  | obj (fields : List (String × JsonVal)) : JsonVal

/-- JSON insignificant whitespace (RFC 8259, as accepted by `json.loads`). -/
def skipJsonWs (l : List Char) : List Char :=
  l.dropWhile (fun c => c = ' ' || c = '\t' || c = '\n' || c = '\r')

/-- Hex digit value, if any. -/
def hexVal (c : Char) : Option ℕ :=
  if c.isDigit then some (c.toNat - 48)
  else if 'a' ≤ c && c ≤ 'f' then some (c.toNat - 87)
  else if 'A' ≤ c && c ≤ 'F' then some (c.toNat - 55)
  else none

/-- JSON number lexeme: `-?(0|[1-9][0-9]*)(\.[0-9]+)?([eE][-+]?[0-9]+)?`. -/
def jsonNumLexeme (l : List Char) : Option (List Char × List Char) :=
  let (neg, r) := match l with
    | '-' :: r => (['-'], r)
    | _ => ([], l)
  match r with
  | [] => none
  | c :: _ =>
    if !c.isDigit then none
    else
      let intPart := if c = '0' then ['0'] else r.takeWhile Char.isDigit
      let r1 := r.drop intPart.length
      let (fracPart, r2) :=
        match r1 with
        | '.' :: r1' =>
          let ds := r1'.takeWhile Char.isDigit
          if ds.isEmpty then ([], r1) else ('.' :: ds, r1'.drop ds.length)
        | _ => ([], r1)
      if fracPart.isEmpty && !(r1.isEmpty) && r1.headI = '.' then none
      else
        let (expPart, r3) :=
          match r2 with
          | e :: r2' =>
            if e = 'e' || e = 'E' then
              let (sgn, r2'') := match r2' with
                | '+' :: t => (['+'], t)
                | '-' :: t => (['-'], t)
                | _ => ([], r2')
              let ds := r2''.takeWhile Char.isDigit
              if ds.isEmpty then ([], r2) else (e :: (sgn ++ ds), r2''.drop ds.length)
            else ([], r2)
          | [] => ([], r2)
        some (neg ++ intPart ++ fracPart ++ expPart, r3)

mutual

/-- Recursive-descent JSON value parser modelling Python `json.loads`
(fuelled; any fuel at least twice the input length suffices). -/
def jsonParseVal : ℕ → List Char → Option (JsonVal × List Char)
  | 0, _ => none
  | fuel + 1, input =>
    match skipJsonWs input with
    | [] => none
    | c :: r =>
      if c = quoteChar then
        match jsonParseStrChars fuel r with
        | some (cs, rest) => some (.str ⟨cs⟩, rest)
        | none => none
      else if c = lbraceChar then
        match skipJsonWs r with
        | c2 :: r2 =>
          if c2 = rbraceChar then some (.obj [], r2)
          else jsonParseFields fuel (c2 :: r2) []
        | [] => none
      else if c = '[' then
        match skipJsonWs r with
        | c2 :: r2 =>
          if c2 = ']' then some (.arr [], r2)
          else jsonParseElems fuel (c2 :: r2) []
        | [] => none
      else if startsWithL "true".data (c :: r) then some (.bool true, (c :: r).drop 4)
      else if startsWithL "false".data (c :: r) then some (.bool false, (c :: r).drop 5)
      else if startsWithL "null".data (c :: r) then some (.null, (c :: r).drop 4)
      else
        match jsonNumLexeme (c :: r) with
        | some (lx, rest) => some (.num ⟨lx⟩, rest)
        | none => none

/-- Members of a JSON object after its opening brace (first non-brace
character already reached). -/
def jsonParseFields : ℕ → List Char → List (String × JsonVal) →
    Option (JsonVal × List Char)
  | 0, _, _ => none
  | fuel + 1, input, acc =>
    match input with
    | c :: r =>
      if c = quoteChar then
        match jsonParseStrChars fuel r with
        | some (key, r2) =>
          match skipJsonWs r2 with
          | ':' :: r3 =>
            match jsonParseVal fuel r3 with
            | some (v, r4) =>
              match skipJsonWs r4 with
              | ',' :: r5 =>
                match skipJsonWs r5 with
                | c6 :: r6 => jsonParseFields fuel (c6 :: r6) (acc ++ [(⟨key⟩, v)])
                | [] => none
              | c5 :: r5 =>
                if c5 = rbraceChar then some (.obj (acc ++ [(⟨key⟩, v)]), r5) else none
              | [] => none
            | none => none
          | _ => none
        | none => none
      else none
    | [] => none

/-- Elements of a JSON array after its opening bracket. -/
def jsonParseElems : ℕ → List Char → List JsonVal → Option (JsonVal × List Char)
  | 0, _, _ => none
  | fuel + 1, input, acc =>
    match jsonParseVal fuel input with
    | some (v, r) =>
      match skipJsonWs r with
      | ',' :: r2 => jsonParseElems fuel r2 (acc ++ [v])
      | ']' :: r2 => some (.arr (acc ++ [v]), r2)
      | _ => none
    | none => none

/-- Body of a JSON string after the opening quote (strict mode: raw control
characters are rejected; surrogate-pair recombination is out of scope). -/
def jsonParseStrChars : ℕ → List Char → Option (List Char × List Char)
  | 0, _ => none
  | fuel + 1, input =>
    match input with
    | [] => none
    | c :: r =>
      if c = quoteChar then some ([], r)
      else if c = '\\' then
        match r with
        | e :: r2 =>
          let esc : Option (Char × List Char) :=
            if e = quoteChar then some (quoteChar, r2)
            else if e = '\\' then some ('\\', r2)
            else if e = '/' then some ('/', r2)
            else if e = 'b' then some ('\x08', r2)
            else if e = 'f' then some ('\x0c', r2)
            else if e = 'n' then some ('\n', r2)
            else if e = 'r' then some ('\r', r2)
            else if e = 't' then some ('\t', r2)
            else if e = 'u' then
              match r2 with
              | h1 :: h2 :: h3 :: h4 :: r3 =>
                match hexVal h1, hexVal h2, hexVal h3, hexVal h4 with
                | some a, some b, some cth, some d =>
                  some (Char.ofNat (((a * 16 + b) * 16 + cth) * 16 + d), r3)
                | _, _, _, _ => none
              | _ => none
            else none
          match esc with
          | some (ch, rest) =>
            match jsonParseStrChars fuel rest with
            | some (cs, rest2) => some (ch :: cs, rest2)
            | none => none
          | none => none
        | [] => none
      else if c.toNat < 32 then none
      else
        match jsonParseStrChars fuel r with
        | some (cs, rest) => some (c :: cs, rest)
        | none => none

end

/-- Python `json.loads`: parse one value and require only whitespace after
it. -/
def jsonLoads (s : String) : Option JsonVal :=
  match jsonParseVal (2 * s.length + 2) s.data with
  | some (v, rest) => if (skipJsonWs rest).isEmpty then some v else none
  | none => none

end Idaia

namespace Idaia

namespace LlmClient

/-- Embeds `DEFAULT_OLLAMA_URL` from `core/llm_client.py`. -/
def DEFAULT_OLLAMA_URL : String := "http://127.0.0.1:11434"

/-- Embeds `DEFAULT_MODEL` from `core/llm_client.py`. -/
def DEFAULT_MODEL : String := "industrial-design-coder"

/-- Embeds the line filter regex of `_normalize_code`,
`re.match(r"^\s*(import\b|from\b.+\bimport\b)", line)`: optional leading
whitespace, then either a word-bounded `import`, or `from` followed (after a
word boundary and at least one character) by a word-bounded `import`. -/
def isImportLine (l : List Char) : Bool :=
  let r := l.dropWhile isPyWs
  (startsWithL "import".data r && boundaryAfterL (r.drop 6)) ||
  (startsWithL "from".data r &&
    (match r.drop 4 with
     | [] => false
     | c :: rest => !isWordChar c && searchAt (wordAt "import".data) (some c) rest))

/-- Embeds `_normalize_code` from `core/llm_client.py`: strip fences, remove
byte-order marks, strip backticks and whitespace from the ends, drop all
the import and from-import lines, repair unmatched braces, and strip. -/
def normalizeCodeL (code : List Char) : List Char :=
  let t1 := Executor.stripFences code
  let t2 := t1.filter (fun c => c != bomChar)
  let t3 := stripSet tickWsSet t2
  let t4 := List.intercalate ['\n'] ((splitlinesPy t3).filter (fun line => !isImportLine line))
  let t5 := Executor.trimTrailingUnmatchedBraces t4
  pyStrip t5

/-- String-level wrapper for `normalizeCodeL`. -/
def normalizeCode (s : String) : String :=
  ⟨normalizeCodeL s.data⟩

/-- Embeds `_normalize_base_url`: strip, drop trailing slashes, drop a
case-insensitive `/api` suffix, and require an `http://` or `https://`
scheme; `none` models the `OllamaError` for an invalid base URL. -/
def normalizeBaseUrl (base : String) : Option String :=
  if (pyStrip base.data).isEmpty then none
  else
    let n1 := rstripBy (fun c => c = '/') (pyStrip base.data)
    let n2 := if endsWithL "/api".data (n1.map Char.toLower) then n1.take (n1.length - 4) else n1
    if startsWithL "http://".data n2 || startsWithL "https://".data n2 then some ⟨n2⟩
    else none

/-- Failure outcomes of `ask_llm`, one per raise site: the entry
`ValueError`, the invalid-base-URL and transport `OllamaError`s, the
missing-`message.content` `OllamaError`, the uncaught `TypeError` from
`json.loads` on a non-string content, the not-valid-JSON `OllamaError`
(carrying the first 200 characters of the content), the `AttributeError`
from `.get` on a non-dict, and the missing-`code`-field `OllamaError`. -/
inductive AskError where
  | emptyUserText : AskError
  | invalidBaseUrl (base : String) : AskError
  | transport (msg : String) : AskError
  | unexpectedPayload : AskError
  | contentNotStr : AskError
  | notValidJson (excerpt : String) : AskError
  | getOnNonDict : AskError
  | noCodeField : AskError
deriving DecidableEq

/-- Python `dict` lookup for JSON objects (the last binding of a duplicated
key wins, as in `json.loads`). -/
def jsonGet (fields : List (String × JsonVal)) (key : String) : Option JsonVal :=
  fields.reverse.lookup key

/-- Embeds the tail of `ask_llm` after `inner` is obtained:
`inner.get("code", "")`, the non-empty-string check, and
`_normalize_code`. -/
def extractCode (inner : JsonVal) : Except AskError String :=
  match inner with
  | .obj fields =>
    match jsonGet fields "code" with
    | none => .error .noCodeField
    | some (.str s) => if s = "" then .error .noCodeField else .ok (normalizeCode s)
    | some _ => .error .noCodeField
  | _ => .error .getOnNonDict

/-- Embeds the JSON-recovery ladder of `ask_llm` applied to
`message.content`: direct parse; on failure strip wrapping
whitespace/backticks and reparse; on failure, when three backticks occur,
split on them and wrap the fenced block (minus a leading language-tag line)
as the code payload; otherwise fail with the not-valid-JSON error. -/
def recoverInner (content : String) : Except AskError JsonVal :=
  match jsonLoads content with
  | some inner => .ok inner
  | none =>
    let stripped : String := ⟨stripSet tickWsSet (pyStrip content.data)⟩
    match jsonLoads stripped with
    | some inner => .ok inner
    | none =>
      if containsSubstr backticks3 content.data then
        let fenced := splitSubstrMax backticks3 2 content.data
        if fenced.length ≥ 2 then
          let candidate := fenced.getD 1 []
          let candidate :=
            if candidate.contains '\n' then
              List.intercalate ['\n'] ((candidate.splitOn '\n').tail)
            else candidate
          .ok (.obj [("code", .str ⟨candidate⟩)])
        else .error (.notValidJson ⟨content.data.take 200⟩)
      else .error (.notValidJson ⟨content.data.take 200⟩)

/-- Embeds `ask_llm` from `core/llm_client.py`. The HTTP call `_post_json`
is an external collaborator, abstracted as `transport`: `.error msg` models
the `OllamaError` it raises, `.ok outer` the parsed response dict. The
system prompt, payload construction and `keep_alive` handling only shape
the request, so they do not appear beyond the arguments. -/
def ask_llm (user_text base_url _model : String) (_temperature : ℚ)
    (_timeout : ℚ) (_keep_alive : Option String)
    (transport : Except String JsonVal) : Except AskError String :=
  if user_text = "" then .error .emptyUserText
  else
    match normalizeBaseUrl base_url with
    | none => .error (.invalidBaseUrl base_url)
    | some _norm =>
      match transport with
      | .error msg => .error (.transport msg)
      | .ok outer =>
        match outer with
        | .obj ofields =>
          match jsonGet ofields "message" with
          | some (.obj mfields) =>
            match jsonGet mfields "content" with
            | some (.str content) =>
              match recoverInner content with
              | .ok inner => extractCode inner
              | .error e => .error e
            | some _ => .error .contentNotStr
            | none => .error .unexpectedPayload
          | some _ => .error .unexpectedPayload
          | none => .error .unexpectedPayload
        | _ => .error .unexpectedPayload

/-- Embeds `ping` from `core/llm_client.py`: call `ask_llm` with the fixed
user text `"ping"` and temperature 0, returning `True` on success and
`False` on any exception. -/
def ping (base_url model : String) (timeout : ℚ) (keep_alive : Option String)
    (transport : Except String JsonVal) : Bool :=
  match ask_llm "ping" base_url model 0 timeout keep_alive transport with
  | .ok _ => true
  | .error _ => false

end LlmClient

end Idaia

namespace Idaia

/-- Apostrophe as a one-character string. -/
def apoS : String := ⟨[apostropheChar]⟩

/-- Double quote as a one-character string. -/
def quoteS : String := ⟨[quoteChar]⟩

namespace Extract

/-- Embeds the unit table shared by `PromptParser` (`self.units`) and
`AIAgent._extract_dimensions` (`units`); factors are exact rationals
standing for the Python floats. -/
def unitsTable : List (String × ℚ) :=
  [("mm", 1), ("cm", 10), ("dm", 100), ("m", 1000),
   ("in", 254/10), ("ft", 3048/10), (quoteS, 254/10), (apoS, 3048/10)]

/-- Embeds `units.get(unit or 'mm', 1.0)`. -/
def unitFactor (u : String) : ℚ :=
  ((unitsTable.lookup (if u = "" then "mm" else u)).getD 1)

/-- Characters matched by the unit capture group `[a-z"\']`. -/
def isUnitChar (c : Char) : Bool :=
  c.isLower || c = quoteChar || c = apostropheChar

/-- Numeric value of a digit run. -/
def numValOfDigits (ds : List Char) : ℚ :=
  ds.foldl (fun acc c => acc * 10 + ((c.toNat : ℚ) - 48)) 0

/-- Match `\d+(?:\.\d+)?` at the current position, returning the value
(`float(...)` modelled exactly as a rational) and the rest; greedy matching
without backtracking is equivalent here because a digit never satisfies the
pattern characters that follow. -/
def parseNumAt (l : List Char) : Option (ℚ × List Char) :=
  let ds := l.takeWhile Char.isDigit
  if ds.isEmpty then none
  else
    let r := l.drop ds.length
    match r with
    | c :: r2 =>
      if c = '.' then
        let fs := r2.takeWhile Char.isDigit
        if fs.isEmpty then some (numValOfDigits ds, r)
        else
          some (numValOfDigits ds + numValOfDigits fs / ((10 : ℚ) ^ fs.length), r2.drop fs.length)
      else some (numValOfDigits ds, r)
    | [] => some (numValOfDigits ds, r)

/-- Match the compound pattern
`(\d+(?:\.\d+)?)x(\d+(?:\.\d+)?)x(\d+(?:\.\d+)?)\s*([a-z"\']*)` at the
current position. -/
def xyzAt (l : List Char) : Option (ℚ × ℚ × ℚ × String) :=
  match parseNumAt l with
  | some (a, c1 :: r1) =>
    if c1 = 'x' then
      match parseNumAt r1 with
      | some (b, c2 :: r2) =>
        if c2 = 'x' then
          match parseNumAt r2 with
          | some (cv, r3) =>
            let r4 := r3.dropWhile isPyWs
            some (a, b, cv, ⟨r4.takeWhile isUnitChar⟩)
          | none => none
        else none
      | _ => none
    else none
  | _ => none

/-- Leftmost match of the compound pattern (Python `re.search`). -/
def searchXyzL : List Char → Option (ℚ × ℚ × ℚ × String)
  | [] => none
  | c :: r =>
    match xyzAt (c :: r) with
    | some v => some v
    | none => searchXyzL r

/-- Match `kw\s+(\d+(?:\.\d+)?)\s*([a-z"\']*)` at the current position. -/
def namedAt (kw : List Char) (l : List Char) : Option (ℚ × String) :=
  if startsWithL kw l then
    let r1 := l.drop kw.length
    let ws := r1.takeWhile isPyWs
    if ws.isEmpty then none
    else
      match parseNumAt (r1.drop ws.length) with
      | some (v, r2) =>
        let r3 := r2.dropWhile isPyWs
        some (v, ⟨r3.takeWhile isUnitChar⟩)
      | none => none
  else none

/-- Leftmost match of a named dimension pattern. -/
def searchNamedL (kw : List Char) : List Char → Option (ℚ × String)
  | [] => none
  | c :: r =>
    match namedAt kw (c :: r) with
    | some v => some v
    | none => searchNamedL kw r

/-- Python `dict` assignment `d[k] = v`: overwrite in place, else append. -/
def dictSet (d : List (String × ℚ)) (k : String) (v : ℚ) : List (String × ℚ) :=
  if d.any (fun p => p.1 == k) then d.map (fun p => if p.1 == k then (k, v) else p)
  else d ++ [(k, v)]

/-- The named patterns, in the sources' dict order. -/
def namedKeywords : List String :=
  ["diameter", "radius", "height", "length", "width"]

/-- Shared body of the two `extract_dimensions` implementations: the
compound `NxNxN [unit]` match replaces the initial mapping wholesale, then
each named pattern overwrites its field. -/
def extractCore (init : List (String × ℚ)) (l : List Char) : List (String × ℚ) :=
  let d1 :=
    match searchXyzL l with
    | some (x, y, z, u) =>
      let f := unitFactor u
      [("length", x * f), ("width", y * f), ("height", z * f)]
    | none => init
  namedKeywords.foldl
    (fun d kw =>
      match searchNamedL kw.data l with
      | some (v, u) => dictSet d kw (v * unitFactor u)
      | none => d)
    d1

end Extract

namespace PromptParser

/-- Embeds `PromptParser.extract_dimensions` from `VibeDesignCommands.py`:
starts from an empty mapping; its caller `parse_and_execute` lowercases the
prompt before calling. -/
def extract_dimensions (prompt : String) : List (String × ℚ) :=
  Extract.extractCore [] prompt.data

end PromptParser

namespace AIAgent

/-- Embeds `AIAgent._extract_dimensions` from `AIAgent.py`: starts from the
default mapping `length, width, height = 10` and lowercases the text itself
(`text.lower()`, modelled for the ASCII range). -/
def extract_dimensions (text : String) : List (String × ℚ) :=
  Extract.extractCore [("length", 10), ("width", 10), ("height", 10)]
    (text.data.map Char.toLower)

/-- Embeds `AIAgentConfig` from `AIAgent.py`, with its `__init__`
defaults. -/
structure Config where
  provider : String := "ollama"
  model : String := "llama3.1:8b"
  api_key : String := ""
  base_url : String := "http://localhost:11434/v1"
  timeout : ℕ := 120
  max_retries : ℕ := 2
  temperature : ℚ := 1/10

/-- Outcomes of one `requests.post` + status check + field extraction in
`_call_llm`, abstracting the HTTP transport: success carries
`result["choices"][0]["message"]["content"]`; the error constructors mirror
the `except` clauses in source order. -/
inductive TransportOutcome where
  | success (content : String) : TransportOutcome
  | httpStatus (code : ℕ) (msg : String) : TransportOutcome
  | httpNoStatus (msg : String) : TransportOutcome
  | timeout : TransportOutcome
  | connectionError : TransportOutcome
  | requestError (msg : String) : TransportOutcome

/-- Loop body of `_call_llm` over `range(max_retries)`: `attempt` is the
current index, the fuel is the number of iterations left, and the result
pairs the number of HTTP attempts performed with the returned content or
the message of the exception finally raised. -/
def callLlmAux (cfg : Config) (tr : ℕ → TransportOutcome) : ℕ → ℕ → ℕ × Except String String
  | attempt, 0 => (attempt, .error "Failed to get response from LLM")
  | attempt, fuel + 1 =>
    let isLast := attempt = cfg.max_retries - 1
    match tr attempt with
    | .success content => (attempt + 1, .ok content)
    | .httpStatus code msg =>
      if code = 500 then
        if isLast then
          (attempt + 1, .error "Ollama server error (500) - likely memory/resource issue. Try a smaller model or restart Ollama.")
        else callLlmAux cfg tr (attempt + 1) fuel
      else if code = 404 then
        (attempt + 1, .error ("Model " ++ apoS ++ cfg.model ++ apoS ++
          " not found. Check if model is installed: ollama pull " ++ cfg.model))
      else if code = 429 then
        if isLast then (attempt + 1, .error "Too many requests. Please wait and try again.")
        else callLlmAux cfg tr (attempt + 1) fuel
      else
        if isLast then (attempt + 1, .error ("HTTP " ++ toString code ++ ": " ++ msg))
        else callLlmAux cfg tr (attempt + 1) fuel
    | .httpNoStatus msg =>
      if isLast then (attempt + 1, .error ("HTTP error: " ++ msg))
      else callLlmAux cfg tr (attempt + 1) fuel
    | .timeout =>
      if isLast then
        (attempt + 1, .error ("Request timed out after " ++ toString cfg.timeout ++
          " seconds. Try increasing timeout in AI settings or using a faster model."))
      else callLlmAux cfg tr (attempt + 1) fuel
    | .connectionError =>
      if isLast then
        (attempt + 1, .error "Could not connect to Ollama. Make sure Ollama is running: ollama serve")
      else callLlmAux cfg tr (attempt + 1) fuel
    | .requestError msg =>
      if isLast then
        (attempt + 1, .error ("LLM API call failed after " ++ toString cfg.max_retries ++
          " attempts: " ++ msg))
      else callLlmAux cfg tr (attempt + 1) fuel

/-- Embeds `AIAgent._call_llm`: run the retry loop from attempt 0 with
`max_retries` iterations available. -/
def call_llm (cfg : Config) (tr : ℕ → TransportOutcome) : ℕ × Except String String :=
  callLlmAux cfg tr 0 cfg.max_retries

/-- One conversation-history entry; the parsed payload type is abstract. -/
structure HistEntry (α : Type) where
  user : String
  assistant : String
  timestamp : ℕ
  parsed : α

/-- Embeds `AIAgent.process_prompt`: on a successful LLM call the parsed
response is appended to the history, which is then capped at its last 5
entries; on an exception the history is untouched and the
`\x7b"error": ..., "fallback": True\x7d` result is returned (modelled as
`Except.error`). `_call_llm` and `_parse_ai_response` are passed as
explicit parameters. -/
def process_prompt {α : Type} (hist : List (HistEntry α)) (prompt : String)
    (llm : Except String String) (parse : String → α) (now : ℕ) :
    List (HistEntry α) × Except String α :=
  match llm with
  | .ok response =>
    let parsed := parse response
    let h := hist ++ [⟨prompt, response, now, parsed⟩]
    let h2 := if h.length > 5 then h.drop (h.length - 5) else h
    (h2, .ok parsed)
  | .error e => (hist, .error e)

end AIAgent

namespace ParametricManager

/-- Character-wise replacement of `re.sub(r'[^a-zA-Z0-9_]', '_', name)`. -/
def sanitizeChar (c : Char) : Char :=
  if c.isAlphanum || c = '_' then c else '_'

/-- Sanitized base name in `create_variable`: replace illegal characters,
strip leading and trailing underscores, and prefix `var_` when the result
is empty or starts with a digit. -/
def sanitizeBase (name : String) : String :=
  let c1 := name.data.map sanitizeChar
  let c2 := stripBy (fun c => c = '_') c1
  if c2.isEmpty || c2.headI.isDigit then ⟨"var_".data ++ c2⟩ else ⟨c2⟩

/-- Little-endian decimal digits of `n`, with explicit fuel (any fuel at
least `n` suffices). -/
def natDigitsAux : ℕ → ℕ → List Char
  | 0, _ => []
  | fuel + 1, n => if n = 0 then [] else Char.ofNat (48 + n % 10) :: natDigitsAux fuel (n / 10)

/-- Decimal rendering of a counter (Python `f"{counter}"`). -/
def natReprL (n : ℕ) : List Char :=
  (natDigitsAux n n).reverse

/-- Decimal rendering as a string. -/
def natRepr (n : ℕ) : String :=
  if n = 0 then "0" else ⟨natReprL n⟩

/-- Candidate name `f"\x7boriginal_name\x7d_\x7bcounter\x7d"`. -/
def candidate (base : String) (k : ℕ) : String :=
  base ++ "_" ++ natRepr k

/-- The `while _variable_exists(clean_name)` loop, with the counter and the
remaining fuel explicit; `existing.length + 1` fuel always finds a free
candidate (see `findUniqueAux_not_mem`). -/
def findUniqueAux (existing : List String) (base : String) : ℕ → ℕ → String
  | _, 0 => base
  | k, fuel + 1 =>
    let c := candidate base k
    if existing.contains c then findUniqueAux existing base (k + 1) fuel else c

/-- Unique-name selection of `create_variable`: keep the sanitized base if
it is unused, else try `base_1`, `base_2`, …. -/
def findUniqueName (existing : List String) (base : String) : String :=
  if existing.contains base then findUniqueAux existing base 1 (existing.length + 1)
  else base

/-- Spreadsheet state visible to `create_variable`: the variable names in
column A (rows 2 and up, in row order). The value/unit/description columns
and `setAlias` are host-side spreadsheet effects outside the embedding;
`_variable_exists` is membership in this list. -/
structure SheetState where
  varNames : List String

/-- Embeds `ParametricObjectManager.create_variable`: sanitize, pick a name
no existing variable has, and append it to column A. -/
def create_variable (st : SheetState) (name : String) : String × SheetState :=
  let base := sanitizeBase name
  let v := findUniqueName st.varNames base
  (v, ⟨st.varNames ++ [v]⟩)

end ParametricManager

end Idaia

namespace Idaia

namespace ParametricManager

/-- Sanitization exactly as claim C8 words it, for comparison with the
source's `create_variable`: every character of the requested name outside
`[a-zA-Z0-9_]` replaced by an underscore, and nothing else. -/
def claimedSanitize (name : String) : String :=
  ⟨name.data.map sanitizeChar⟩

end ParametricManager

/-! ## Helper lemmas: Python string primitives -/

theorem dropWhile_head_false (p : Char → Bool) :
    ∀ (l : List Char) (c : Char) (r : List Char), l.dropWhile p = c :: r → p c = false := by
  intro l
  induction l with
  | nil => intro c r h; simp at h
  | cons a t ih =>
    intro c r h
    by_cases hp : p a
    · rw [List.dropWhile_cons_of_pos hp] at h
      exact ih c r h
    · rw [List.dropWhile_cons_of_neg hp] at h
      cases h
      simpa using hp

theorem dropWhile_dropWhile (p : Char → Bool) (l : List Char) :
    (l.dropWhile p).dropWhile p = l.dropWhile p := by
  induction l with
  | nil => simp
  | cons a t ih =>
    by_cases hp : p a
    · rw [List.dropWhile_cons_of_pos hp]; exact ih
    · rw [List.dropWhile_cons_of_neg hp, List.dropWhile_cons_of_neg hp]

theorem dropWhile_all_false (p : Char → Bool) (l : List Char) (h : ∀ c ∈ l, p c = false) :
    l.dropWhile p = l := by
  cases l with
  | nil => rfl
  | cons a t => exact List.dropWhile_cons_of_neg (by simp [h a (by simp)])

theorem takeWhile_all_true (p : Char → Bool) (l : List Char) (h : ∀ c ∈ l, p c = true) :
    l.takeWhile p = l := by
  induction l with
  | nil => rfl
  | cons a t ih =>
    rw [List.takeWhile_cons_of_pos (h a (by simp))]
    rw [ih (fun c hc => h c (by simp [hc]))]

theorem rstripBy_head_cons (p : Char → Bool) (x : List Char) (c : Char) (r : List Char)
    (h : rstripBy p x = c :: r) : ∃ r2, x = c :: r2 := by
  unfold rstripBy at h
  have hsuf : x.reverse.dropWhile p <:+ x.reverse := List.dropWhile_suffix p
  obtain ⟨t, ht⟩ := hsuf
  have hx : x = (x.reverse.dropWhile p).reverse ++ t.reverse := by
    have := congrArg List.reverse ht
    simpa [List.reverse_append] using this.symm
  rw [h] at hx
  exact ⟨r ++ t.reverse, by simpa using hx⟩

theorem stripBy_head_false (p : Char → Bool) (l : List Char) (c : Char) (r : List Char)
    (h : stripBy p l = c :: r) : p c = false := by
  unfold stripBy at h
  obtain ⟨r2, hr2⟩ := rstripBy_head_cons p _ c r h
  exact dropWhile_head_false p l c r2 hr2

theorem stripBy_reverse_head_false (p : Char → Bool) (l : List Char) (c : Char) (r : List Char)
    (h : (stripBy p l).reverse = c :: r) : p c = false := by
  unfold stripBy rstripBy at h
  rw [List.reverse_reverse] at h
  exact dropWhile_head_false p _ c r h

theorem stripBy_eq_self (p : Char → Bool) (l : List Char)
    (hh : ∀ c r, l = c :: r → p c = false)
    (hl : ∀ c r, l.reverse = c :: r → p c = false) : stripBy p l = l := by
  cases l with
  | nil => rfl
  | cons a t =>
    have ha : ¬ p a = true := by simp [hh a t rfl]
    unfold stripBy lstripBy rstripBy
    rw [List.dropWhile_cons_of_neg ha]
    cases hrev : (a :: t).reverse with
    | nil => simp at hrev
    | cons b s =>
      have hb : ¬ p b = true := by simp [hl b s hrev]
      rw [List.dropWhile_cons_of_neg hb, ← hrev, List.reverse_reverse]

theorem stripBy_idem (p : Char → Bool) (l : List Char) :
    stripBy p (stripBy p l) = stripBy p l := by
  apply stripBy_eq_self
  · intro c r h; exact stripBy_head_false p l c r h
  · intro c r h; exact stripBy_reverse_head_false p l c r h

theorem rstripBy_stripBy (p : Char → Bool) (l : List Char) :
    rstripBy p (stripBy p l) = stripBy p l := by
  unfold stripBy rstripBy
  rw [List.reverse_reverse, dropWhile_dropWhile]

theorem mem_of_mem_stripBy (p : Char → Bool) (l : List Char) (c : Char)
    (h : c ∈ stripBy p l) : c ∈ l := by
  unfold stripBy rstripBy lstripBy at h
  rw [List.mem_reverse] at h
  have h2 := (List.dropWhile_sublist (l := (l.dropWhile p).reverse) p).mem h
  rw [List.mem_reverse] at h2
  exact (List.dropWhile_sublist p).mem h2

theorem mem_dropWhile_of_mem (p : Char → Bool) (l : List Char) (c : Char)
    (hc : p c = false) (h : c ∈ l) : c ∈ l.dropWhile p := by
  induction l with
  | nil => simp at h
  | cons a t ih =>
    by_cases hp : p a
    · rw [List.dropWhile_cons_of_pos hp]
      rcases List.mem_cons.mp h with h1 | h1
      · subst h1; rw [hc] at hp; simp at hp
      · exact ih h1
    · rwa [List.dropWhile_cons_of_neg hp]

theorem mem_stripBy_of_mem (p : Char → Bool) (l : List Char) (c : Char)
    (hc : p c = false) (h : c ∈ l) : c ∈ stripBy p l := by
  unfold stripBy rstripBy lstripBy
  rw [List.mem_reverse]
  apply mem_dropWhile_of_mem p _ c hc
  rw [List.mem_reverse]
  exact mem_dropWhile_of_mem p l c hc h

end Idaia

namespace Idaia

/-! ## Helper lemmas: line splitting -/

theorem splitOn_cons_eq (sep : Char) (l : List Char) :
    (sep :: l).splitOn sep = [] :: l.splitOn sep := by
  simp only [List.splitOn, List.splitOnP_cons, beq_self_eq_true, if_pos]

theorem splitOn_cons_ne (c sep : Char) (l : List Char) (h : (c == sep) = false) :
    (c :: l).splitOn sep = (c :: (l.splitOn sep).headI) :: (l.splitOn sep).tail := by
  simp only [List.splitOn, List.splitOnP_cons, h, Bool.false_eq_true, if_false]
  have hne : l.splitOnP (· == sep) ≠ [] := List.splitOnP_ne_nil _ l
  cases hsp : l.splitOnP (· == sep) with
  | nil => exact absurd hsp hne
  | cons x xs => rfl

theorem splitOn_ne_nil (sep : Char) (l : List Char) : l.splitOn sep ≠ [] :=
  List.splitOnP_ne_nil _ l

theorem splitOn_append (sep : Char) (a : List Char) :
    ∀ b : List Char, (a ++ sep :: b).splitOn sep = a.splitOn sep ++ b.splitOn sep := by
  induction a with
  | nil =>
    intro b
    rw [List.nil_append, splitOn_cons_eq]
    rfl
  | cons c a' ih =>
    intro b
    by_cases hc : c = sep
    · subst hc
      rw [List.cons_append, splitOn_cons_eq, splitOn_cons_eq, ih b]
      rfl
    · have hbeq : (c == sep) = false := by simp [hc]
      rw [List.cons_append, splitOn_cons_ne c sep _ hbeq, splitOn_cons_ne c sep _ hbeq, ih b]
      have hne : a'.splitOn sep ≠ [] := splitOn_ne_nil sep a'
      cases h : a'.splitOn sep with
      | nil => exact absurd h hne
      | cons x xs => rfl

theorem breakSplit_ne_nil : ∀ l : List Char, breakSplit l ≠ [] := by
  intro l
  induction l using breakSplit.induct with
  | case1 => decide
  | case2 c h => simp only [breakSplit, h, if_true]; simp
  | case3 c h => simp only [breakSplit, h, Bool.false_eq_true, if_false]; simp
  | case4 c c2 rest h ih => simp only [breakSplit, if_pos h]; simp
  | case5 c c2 rest h hb ih =>
    simp only [breakSplit, if_neg h, hb, if_true]; simp
  | case6 c c2 rest h hb ih =>
    simp only [breakSplit, if_neg h, hb, Bool.false_eq_true, if_false]; simp

theorem breakSplit_eq_splitOn (l : List Char)
    (hnl : ∀ c ∈ l, isBreakChar c = true → c = '\n') :
    breakSplit l = l.splitOn '\n' := by
  induction l using breakSplit.induct with
  | case1 => rfl
  | case2 c h =>
    have hcn : c = '\n' := hnl c (by simp) h
    subst hcn
    simp only [breakSplit, h, if_true]
    rfl
  | case3 c h =>
    have hcn : (c == '\n') = false := by
      simp only [beq_eq_false_iff_ne, ne_eq]
      intro hc; subst hc; exact h (by decide)
    simp only [breakSplit, h, Bool.false_eq_true, if_false]
    rw [splitOn_cons_ne c _ _ hcn]
    rfl
  | case4 c c2 rest h ih =>
    exact absurd (hnl c (by simp [h.1]) (by rw [h.1]; decide)) (by rw [h.1]; decide)
  | case5 c c2 rest h hb ih =>
    have hcn : c = '\n' := hnl c (by simp) hb
    subst hcn
    have ih2 := ih (fun x hx hbx => hnl x (by simp [hx]) hbx)
    simp only [breakSplit, if_neg h, hb, if_true, ih2]
    rw [splitOn_cons_eq]
  | case6 c c2 rest h hb ih =>
    have hcn : (c == '\n') = false := by
      simp only [beq_eq_false_iff_ne, ne_eq]
      intro hc; subst hc; exact hb (by decide)
    have ih2 := ih (fun x hx hbx => hnl x (by simp [hx]) hbx)
    simp only [breakSplit, if_neg h, hb, Bool.false_eq_true, if_false, ih2]
    rw [splitOn_cons_ne c _ _ hcn]

theorem splitlinesPy_eq_splitOn (l : List Char)
    (hnl : ∀ c ∈ l, isBreakChar c = true → c = '\n')
    (hlast : ∀ c r, l.reverse = c :: r → isBreakChar c = false)
    (hne : l ≠ []) :
    splitlinesPy l = l.splitOn '\n' := by
  unfold splitlinesPy
  cases hrev : l.reverse with
  | nil => simp at hrev; exact absurd hrev hne
  | cons c r =>
    have hgl : l.getLast? = some c := by
      rw [← List.head?_reverse, hrev]; rfl
    rw [hgl]
    simp only [hlast c r hrev, Bool.false_eq_true, if_false]
    exact breakSplit_eq_splitOn l hnl

end Idaia

namespace Idaia

/-! ## Helper lemmas: fence stripping on a wrapped payload -/

theorem stripBy_concat_eq_self (p : Char → Bool) (c0 c1 : Char) (mid : List Char)
    (h0 : p c0 = false) (h1 : p c1 = false) :
    stripBy p (c0 :: (mid ++ [c1])) = c0 :: (mid ++ [c1]) := by
  apply stripBy_eq_self
  · intro c r h
    rw [List.cons.injEq] at h
    exact h.1 ▸ h0
  · intro c r h
    rw [List.reverse_cons, List.reverse_append] at h
    simp only [List.reverse_cons, List.reverse_nil, List.nil_append, List.cons_append,
      List.cons.injEq] at h
    exact h.1 ▸ h1

theorem stripFences_wrap (code : List Char)
    (hnl : ∀ c ∈ code, isBreakChar c = true → c = '\n') :
    Executor.stripFences ("```python\n".data ++ (code ++ "\n```".data)) = pyStrip code := by
  set w : List Char := "```python\n".data ++ (code ++ "\n```".data) with hw
  have hw2 : w = '`' :: (("``python\n".data ++ (code ++ "\n``".data)) ++ ['`']) := by
    rw [hw, List.append_assoc, List.append_assoc]
    rfl
  have hpy : pyStrip w = w := by
    rw [hw2]
    exact stripBy_concat_eq_self isPyWs '`' '`' _ (by decide) (by decide)
  have htake : w.take 3 = backticks3 := by
    rw [hw]
    rfl
  have hAchars : ∀ x ∈ "```python\n".data, isBreakChar x = true → x = '\n' := by decide
  have hBchars : ∀ x ∈ "\n```".data, isBreakChar x = true → x = '\n' := by decide
  have hwchars : ∀ c ∈ w, isBreakChar c = true → c = '\n' := by
    intro c hc
    rw [hw, List.mem_append, List.mem_append] at hc
    rcases hc with hA | hcode | hB
    · exact hAchars c hA
    · exact hnl c hcode
    · exact hBchars c hB
  have hwlast : ∀ c r, w.reverse = c :: r → isBreakChar c = false := by
    intro c r h
    rw [hw2, List.reverse_cons, List.reverse_append] at h
    simp only [List.reverse_cons, List.reverse_nil, List.nil_append, List.cons_append,
      List.cons.injEq] at h
    exact h.1 ▸ (by decide : isBreakChar '`' = false)
  have hsplit : splitlinesPy w = w.splitOn '\n' :=
    splitlinesPy_eq_splitOn w hwchars hwlast (by rw [hw2]; simp)
  have hw3 : w = "```python".data ++ '\n' :: (code ++ ('\n' :: "```".data)) := by
    rw [hw]
    rfl
  have hsingleA : ("```python".data : List Char).splitOn '\n' = ["```python".data] := by
    simp only [List.splitOn]
    exact @List.splitOnP_eq_single _ (· == '\n') "```python".data (by decide)
  have hsingleB : ("```".data : List Char).splitOn '\n' = ["```".data] := by
    simp only [List.splitOn]
    exact @List.splitOnP_eq_single _ (· == '\n') "```".data (by decide)
  have hsplitOn : w.splitOn '\n' =
      ["```python".data] ++ (code.splitOn '\n' ++ ["```".data]) := by
    rw [hw3, splitOn_append, hsingleA, splitOn_append, hsingleB]
  have hbt3 : pyStrip "```".data = backticks3 := by decide
  unfold Executor.stripFences
  simp only [hpy, htake, hsplit, hsplitOn, if_pos rfl, List.singleton_append,
    List.drop_succ_cons, List.drop_zero, List.getLast?_concat, hbt3, List.dropLast_concat,
    if_true]
  rw [List.intercalate_splitOn]

end Idaia

namespace Idaia

/-! ## Helper lemmas: the two normalizers on a wrapped payload -/

theorem tickWsSet_contains_false (c : Char) (h1 : isPyWs c = false) (h2 : c ≠ backtickChar) :
    tickWsSet.contains c = false := by
  rw [Bool.eq_false_iff]
  intro hc
  have hm : c ∈ tickWsSet := by simpa using hc
  rw [show tickWsSet = [backtickChar, ' ', '\n', '\r', '\t'] from rfl] at hm
  simp only [List.mem_cons, List.not_mem_nil, or_false] at hm
  rcases hm with h | h | h | h | h
  · exact h2 h
  all_goals (subst h; simp [isPyWs] at h1)

theorem trim_eq_self (t : List Char) (ht : rstripBy isPyWs t = t)
    (h : lbraceChar ∈ t ∨ ∀ c r, t.reverse = c :: r → c ≠ rbraceChar) :
    Executor.trimTrailingUnmatchedBraces t = t := by
  unfold Executor.trimTrailingUnmatchedBraces
  simp only [ht]
  by_cases hc : t.contains lbraceChar
  · rw [if_pos hc]
  · rw [if_neg hc]
    have hr : ∀ c r, t.reverse = c :: r → c ≠ rbraceChar := by
      rcases h with hl | hr
      · exact absurd (by simpa using hl : t.contains lbraceChar = true) hc
      · exact hr
    cases hrev : t.reverse with
    | nil =>
      have ht0 : t = [] := by simpa using congrArg List.reverse hrev
      subst ht0
      rfl
    | cons c r =>
      have hlen : t.length = r.length + 1 := by
        rw [← List.length_reverse, hrev, List.length_cons]
      rw [hlen]
      unfold Executor.trimBraceAux
      rw [if_neg (by simpa using hr c r hrev)]
      rw [← hrev, List.reverse_reverse]

theorem executor_normalize_wrap (code : List Char)
    (hbt : backtickChar ∉ code)
    (hnl : ∀ c ∈ code, isBreakChar c = true → c = '\n')
    (hbom : bomChar ∉ code)
    (hbr : lbraceChar ∈ code ∨ ∀ c r, (pyStrip code).reverse = c :: r → c ≠ rbraceChar) :
    Executor.normalizeL ("```python\n".data ++ (code ++ "\n```".data)) = pyStrip code := by
  have hsub : ∀ c, c ∈ pyStrip code → c ∈ code := fun c => mem_of_mem_stripBy isPyWs code c
  have h1 := stripFences_wrap code hnl
  have h2 : (pyStrip code).filter (fun c => c != bomChar) = pyStrip code := by
    rw [List.filter_eq_self]
    intro a ha
    simp only [bne_iff_ne, ne_eq, decide_eq_true_eq]
    intro heq
    exact hbom (heq ▸ hsub a ha)
  have h3 : stripSet tickWsSet (pyStrip code) = pyStrip code := by
    apply stripBy_eq_self
    · intro c r h
      have hw := stripBy_head_false isPyWs code c r h
      have hm : c ∈ code := hsub c (h ▸ List.mem_cons_self c r)
      exact tickWsSet_contains_false c hw (fun he => hbt (he ▸ hm))
    · intro c r h
      have hw := stripBy_reverse_head_false isPyWs code c r h
      have hm : c ∈ code := hsub c (by
        rw [← List.mem_reverse, h]; exact List.mem_cons_self c r)
      exact tickWsSet_contains_false c hw (fun he => hbt (he ▸ hm))
  have h4 : Executor.trimTrailingUnmatchedBraces (pyStrip code) = pyStrip code := by
    apply trim_eq_self
    · exact rstripBy_stripBy isPyWs code
    · rcases hbr with hl | hr
      · exact Or.inl (mem_stripBy_of_mem isPyWs code lbraceChar (by decide) hl)
      · exact Or.inr hr
  have h5 : pyStrip (pyStrip code) = pyStrip code := stripBy_idem isPyWs code
  unfold Executor.normalizeL
  simp only [h1, h2, h3, h4, h5]

theorem pyStrip_last_not_break (code : List Char)
    (hnl : ∀ c ∈ code, isBreakChar c = true → c = '\n') :
    ∀ c r, (pyStrip code).reverse = c :: r → isBreakChar c = false := by
  intro c r h
  have hw := stripBy_reverse_head_false isPyWs code c r h
  have hm : c ∈ code := mem_of_mem_stripBy isPyWs code c (by
    rw [← List.mem_reverse, show (stripBy isPyWs code).reverse = c :: r from h]
    exact List.mem_cons_self c r)
  rw [Bool.eq_false_iff]
  intro hb
  have := hnl c hm hb
  subst this
  simp [isPyWs] at hw

theorem client_normalize_wrap (code : List Char)
    (hbt : backtickChar ∉ code)
    (hnl : ∀ c ∈ code, isBreakChar c = true → c = '\n')
    (hbom : bomChar ∉ code)
    (hbr : lbraceChar ∈ code ∨ ∀ c r, (pyStrip code).reverse = c :: r → c ≠ rbraceChar)
    (himp : ∀ line ∈ (pyStrip code).splitOn '\n', LlmClient.isImportLine line = false) :
    LlmClient.normalizeCodeL ("```python\n".data ++ (code ++ "\n```".data)) = pyStrip code := by
  have hsub : ∀ c, c ∈ pyStrip code → c ∈ code := fun c => mem_of_mem_stripBy isPyWs code c
  have h1 := stripFences_wrap code hnl
  have h2 : (pyStrip code).filter (fun c => c != bomChar) = pyStrip code := by
    rw [List.filter_eq_self]
    intro a ha
    simp only [bne_iff_ne, ne_eq, decide_eq_true_eq]
    intro heq
    exact hbom (heq ▸ hsub a ha)
  have h3 : stripSet tickWsSet (pyStrip code) = pyStrip code := by
    apply stripBy_eq_self
    · intro c r h
      have hw := stripBy_head_false isPyWs code c r h
      have hm : c ∈ code := hsub c (h ▸ List.mem_cons_self c r)
      exact tickWsSet_contains_false c hw (fun he => hbt (he ▸ hm))
    · intro c r h
      have hw := stripBy_reverse_head_false isPyWs code c r h
      have hm : c ∈ code := hsub c (by
        rw [← List.mem_reverse, h]; exact List.mem_cons_self c r)
      exact tickWsSet_contains_false c hw (fun he => hbt (he ▸ hm))
  have h4 : List.intercalate ['\n']
      ((splitlinesPy (pyStrip code)).filter (fun line => !LlmClient.isImportLine line)) =
      pyStrip code := by
    by_cases hemp : pyStrip code = []
    · rw [hemp]
      rfl
    · have hsl : splitlinesPy (pyStrip code) = (pyStrip code).splitOn '\n' := by
        apply splitlinesPy_eq_splitOn
        · intro c hc hb
          exact hnl c (hsub c hc) hb
        · exact pyStrip_last_not_break code hnl
        · exact hemp
      rw [hsl]
      rw [List.filter_eq_self.mpr (by
        intro line hline
        simp only [Bool.not_eq_eq_eq_not, Bool.not_true]
        exact himp line hline)]
      exact List.intercalate_splitOn _ '\n'
  have h5 : Executor.trimTrailingUnmatchedBraces (pyStrip code) = pyStrip code := by
    apply trim_eq_self
    · exact rstripBy_stripBy isPyWs code
    · rcases hbr with hl | hr
      · exact Or.inl (mem_stripBy_of_mem isPyWs code lbraceChar (by decide) hl)
      · exact Or.inr hr
  have h6 : pyStrip (pyStrip code) = pyStrip code := stripBy_idem isPyWs code
  unfold LlmClient.normalizeCodeL
  simp only [h1, h2, h3, h4, h5, h6]

end Idaia

namespace Idaia

/-! ## Helper lemmas: the guard on uniform inputs -/

theorem replicate_cons_char (n : ℕ) (a c : Char) (r : List Char)
    (h : List.replicate n a = c :: r) : c = a := by
  have : c ∈ List.replicate n a := by rw [h]; exact List.mem_cons_self c r
  exact List.eq_of_mem_replicate this

theorem stripBy_replicate (p : Char → Bool) (n : ℕ) (a : Char) (h : p a = false) :
    stripBy p (List.replicate n a) = List.replicate n a := by
  apply stripBy_eq_self
  · intro c r hc
    exact (replicate_cons_char n a c r hc) ▸ h
  · intro c r hc
    rw [List.reverse_replicate] at hc
    exact (replicate_cons_char n a c r hc) ▸ h

theorem rstripBy_replicate (p : Char → Bool) (n : ℕ) (a : Char) (h : p a = false) :
    rstripBy p (List.replicate n a) = List.replicate n a := by
  unfold rstripBy
  rw [List.reverse_replicate, dropWhile_all_false p _ (fun c hc =>
    (List.eq_of_mem_replicate hc) ▸ h), List.reverse_replicate]

theorem normalizeL_replicate_hash (n : ℕ) :
    Executor.normalizeL (List.replicate n '#') = List.replicate n '#' := by
  have hpy : pyStrip (List.replicate n '#') = List.replicate n '#' :=
    stripBy_replicate isPyWs n '#' (by decide)
  have hfence : Executor.stripFences (List.replicate n '#') = List.replicate n '#' := by
    unfold Executor.stripFences
    rw [hpy]
    rw [if_neg ?hne]
    case hne =>
      intro h
      rw [List.take_replicate] at h
      have : backtickChar ∈ List.replicate (min 3 n) '#' := by
        rw [h]; exact List.mem_cons_self _ _
      have := List.eq_of_mem_replicate this
      exact absurd this (by decide)
  have hfil : (List.replicate n '#').filter (fun c => c != bomChar) = List.replicate n '#' := by
    rw [List.filter_eq_self]
    intro a ha
    rw [List.eq_of_mem_replicate ha]
    decide
  have hset : stripSet tickWsSet (List.replicate n '#') = List.replicate n '#' :=
    stripBy_replicate _ n '#' (by decide)
  have htrim : Executor.trimTrailingUnmatchedBraces (List.replicate n '#') =
      List.replicate n '#' := by
    apply trim_eq_self
    · exact rstripBy_replicate isPyWs n '#' (by decide)
    · refine Or.inr (fun c r hc => ?_)
      rw [List.reverse_replicate] at hc
      rw [replicate_cons_char n '#' c r hc]
      decide
  unfold Executor.normalizeL
  simp only [hfence, hfil, hset, htrim, hpy]

theorem normalizeL_stripped (l : List Char) :
    pyStrip (Executor.normalizeL l) = Executor.normalizeL l := by
  unfold Executor.normalizeL
  exact stripBy_idem isPyWs _

/-! ## Claim C2 -/

/-- C2, counterexample: the claim says every input string longer than 5000
characters makes `safe_run` raise a size-exceeded error before execution;
but the length check runs on the *normalized* string, so `"x=1"` padded
with 5000 blanks (5004 characters) passes every guard check and is
executed. -/
theorem c2_size_guard_counterexample :
    ((String.mk ("x=1".data ++ List.replicate 5000 ' ')).length > 5000) ∧
    Executor.safe_run_guard (String.mk ("x=1".data ++ List.replicate 5000 ' ')) =
      .ok "x=1" := by
  constructor
  · show ("x=1".data ++ List.replicate 5000 ' ').length > 5000
    rw [List.length_append, List.length_replicate]
    decide
  · have hpy : pyStrip ("x=1".data ++ List.replicate 5000 ' ') = "x=1".data := by
      unfold pyStrip stripBy lstripBy rstripBy
      rw [show ("x=1".data ++ List.replicate 5000 ' ' : List Char) =
        'x' :: ("=1".data ++ List.replicate 5000 ' ') from rfl]
      rw [List.dropWhile_cons_of_neg (by decide)]
      rw [show ('x' :: ("=1".data ++ List.replicate 5000 ' ') : List Char) =
        "x=1".data ++ List.replicate 5000 ' ' from rfl]
      rw [List.reverse_append, List.reverse_replicate,
        List.dropWhile_append_of_pos (by
          intro a ha
          rw [List.eq_of_mem_replicate ha]; rfl)]
      decide
    have hfence : Executor.stripFences ("x=1".data ++ List.replicate 5000 ' ') =
        "x=1".data := by
      simp only [Executor.stripFences, hpy]
      decide
    have hnorm : Executor.normalizeL ("x=1".data ++ List.replicate 5000 ' ') =
        "x=1".data := by
      simp only [Executor.normalizeL, hfence]
      decide
    show Executor.safe_run_guard (String.mk ("x=1".data ++ List.replicate 5000 ' ')) = _
    simp only [Executor.safe_run_guard, hnorm]
    rfl

/-- C2, amended: the Guarded Executor's length check applies to the
normalized form of the input: whenever the normalized snippet exceeds
`MAX_CODE_LEN` (5000) characters, `safe_run` raises the size-exceeded
`ValueError` naming the actual and the maximum length, before any
execution occurs. -/
theorem c2_size_guard_amended (s : String)
    (h : Executor.MAX_CODE_LEN < (Executor.normalizeL s.data).length) :
    Executor.safe_run_guard s =
      .error (.tooLong (Executor.normalizeL s.data).length Executor.MAX_CODE_LEN) := by
  have hstr := normalizeL_stripped s.data
  have hne : (Executor.normalizeL s.data).isEmpty = false := by
    cases hl : Executor.normalizeL s.data with
    | nil => rw [hl] at h; simp [Executor.MAX_CODE_LEN] at h
    | cons c r => rfl
  simp only [Executor.safe_run_guard, Executor.assertSafe, hstr, hne, Bool.false_eq_true,
    if_false]
  rw [if_pos h]

/-- C2, witness: 5001 hash marks normalize to themselves, and `safe_run`
raises the size-exceeded error naming 5001 and 5000. -/
theorem c2_size_guard_witness :
    ((String.mk (List.replicate 5001 '#')).length > 5000) ∧
    Executor.safe_run_guard (String.mk (List.replicate 5001 '#')) =
      .error (.tooLong 5001 5000) := by
  have hnorm : Executor.normalizeL (String.mk (List.replicate 5001 '#')).data =
      List.replicate 5001 '#' := normalizeL_replicate_hash 5001
  constructor
  · show (List.replicate 5001 '#').length > 5000
    rw [List.length_replicate]
    decide
  · have h := c2_size_guard_amended (String.mk (List.replicate 5001 '#')) (by
      rw [hnorm, List.length_replicate]; decide)
    rw [hnorm, List.length_replicate] at h
    exact h

end Idaia

namespace Idaia

/-! ## Helper lemmas: word-boundary search -/

theorem toLower_of_not_word (c : Char) (h : isWordChar c = false) : c.toLower = c := by
  rw [show c.toLower =
    if c.toNat ≥ 65 ∧ c.toNat ≤ 90 then Char.ofNat (c.toNat + 32) else c from rfl]
  rw [if_neg]
  rintro ⟨h1, h2⟩
  have hup : c.isUpper = true := by
    show (decide (65 ≤ c.val) && decide (c.val ≤ 90)) = true
    rw [Bool.and_eq_true, decide_eq_true_eq, decide_eq_true_eq]
    exact ⟨h1, h2⟩
  have haln : c.isAlphanum = true := by
    unfold Char.isAlphanum Char.isAlpha
    rw [hup]
    rfl
  rw [isWordChar, haln] at h
  simp at h

theorem searchAt_append (f : Option Char → List Char → Bool) :
    ∀ (a : List Char) (prev : Option Char) (tail : List Char),
      f (Option.or a.getLast? prev) tail = true → searchAt f prev (a ++ tail) = true := by
  intro a
  induction a with
  | nil =>
    intro prev tail h
    simp only [List.getLast?_nil, Option.or] at h
    cases tail with
    | nil => exact h
    | cons c r =>
      show (f prev (c :: r) || _) = true
      rw [h, Bool.true_or]
  | cons c a' ih =>
    intro prev tail h
    have hor : Option.or (c :: a').getLast? prev = Option.or a'.getLast? (some c) := by
      cases a' with
      | nil => rfl
      | cons b t =>
        rw [List.getLast?_cons_cons]
        cases hgl : (b :: t).getLast? with
        | none => exact absurd hgl (by simp)
        | some x => rfl
    rw [hor] at h
    show (f prev (c :: a' ++ tail) || searchAt f (some c) (a' ++ tail)) = true
    rw [ih (some c) tail h, Bool.or_true]

theorem wordAt_import_head (prev : Option Char) (b : List Char)
    (hprev : ∀ c, prev = some c → isWordChar c = false) :
    wordAt "import".data prev ("import os".data ++ b) = true := by
  unfold wordAt
  have hb : boundaryBefore prev = true := by
    cases hp : prev with
    | none => rfl
    | some c => simp only [boundaryBefore, hprev c hp]; rfl
  rw [hb]
  rfl

theorem searchWord_import_of_boundary (t a b : List Char)
    (hsplit : t = a ++ ("import os".data ++ b))
    (hbound : ∀ c, a.getLast? = some c → isWordChar c = false) :
    searchWord "import".data (t.map Char.toLower) = true := by
  subst hsplit
  rw [List.map_append, List.map_append]
  rw [show ("import os".data.map Char.toLower) = "import os".data from rfl]
  unfold searchWord
  apply searchAt_append
  apply wordAt_import_head
  intro c hc
  cases hgl : a.getLast? with
  | none =>
    rw [List.getLast?_map, hgl] at hc
    simp [Option.or] at hc
  | some d =>
    rw [List.getLast?_map, hgl] at hc
    have hdw := hbound d hgl
    simp only [Option.map_some', Option.or, Option.some.injEq] at hc
    rw [toLower_of_not_word d hdw] at hc
    rw [← hc]
    exact hdw

end Idaia

namespace Idaia

/-! ## Claim C3 -/

theorem bannedFind_of_import (l : List Char)
    (h : searchWord "import".data (l.map Char.toLower) = true) :
    Executor.bannedFind l = some "\\bimport\\b" := by
  unfold Executor.bannedFind Executor.bannedTable
  rw [List.findSome?_cons]
  unfold searchWord at h
  rw [h]
  rfl

/-- C3, counterexample: the claim says every code string containing the
literal substring `import os` is rejected with a blocked-pattern error and
never executed; but the deny-list runs on the *normalized* string, and
fence stripping deletes the first line of a fenced snippet, so
`"```import os\nx=1\n```"` contains `import os`, passes every guard check
and proceeds to execute `x=1`. -/
theorem c3_import_guard_counterexample :
    containsSubstr "import os".data "```import os\nx=1\n```".data = true ∧
    Executor.safe_run_guard "```import os\nx=1\n```" = .ok "x=1" :=
  ⟨by decide, rfl⟩

/-- C3, amended: the deny-list check applies to the normalized form of the
input: whenever the normalized snippet is within the length cap and
contains `import os` not preceded by a word character (in particular, as a
whole word), `safe_run` fails with the blocked-pattern `ValueError`
identifying the first deny-list rule `\bimport\b`, and performs no
execution. -/
theorem c3_import_guard_amended (s : String)
    (himp : ∃ a b, Executor.normalizeL s.data = a ++ ("import os".data ++ b) ∧
      ∀ c, a.getLast? = some c → isWordChar c = false)
    (hlen : (Executor.normalizeL s.data).length ≤ Executor.MAX_CODE_LEN) :
    Executor.safe_run_guard s = .error (.blocked "\\bimport\\b") := by
  obtain ⟨a, b, hsplit, hbound⟩ := himp
  have hsw : searchWord "import".data ((Executor.normalizeL s.data).map Char.toLower) = true :=
    searchWord_import_of_boundary _ a b hsplit hbound
  have hbf : Executor.bannedFind (Executor.normalizeL s.data) = some "\\bimport\\b" :=
    bannedFind_of_import _ hsw
  have hstr := normalizeL_stripped s.data
  have hne : (Executor.normalizeL s.data).isEmpty = false := by
    rw [hsplit]
    cases a <;> rfl
  simp only [Executor.safe_run_guard, Executor.assertSafe, hstr, hne, Bool.false_eq_true,
    if_false]
  rw [if_neg (by omega), hbf]

/-- C3, witness: the snippet `import os` itself normalizes to itself,
contains `import os` at the start, and is rejected by the `\bimport\b`
rule. -/
theorem c3_import_guard_witness :
    Executor.safe_run_guard "import os" = .error (.blocked "\\bimport\\b") :=
  c3_import_guard_amended "import os"
    ⟨[], [], by decide, fun c hc => by simp at hc⟩ (by decide)

end Idaia

namespace Idaia

/-! ## Claim C5 -/

/-- C5, counterexample: the claim says normalizing a fenced payload returns
exactly the payload with surrounding whitespace trimmed, for every
payload; but the trailing-brace repair alters the payload `x=1}` (which is
already whitespace-trimmed) to `x=1`, in both normalizers. -/
theorem c5_normalizer_round_trip_counterexample :
    Executor.normalize ("```python\n" ++ "x=1\x7d" ++ "\n```") = "x=1" ∧
    LlmClient.normalizeCode ("```python\n" ++ "x=1\x7d" ++ "\n```") = "x=1" ∧
    pyStrip ("x=1\x7d").data = ("x=1\x7d").data ∧
    ("x=1" : String) ≠ "x=1\x7d" :=
  ⟨rfl, rfl, rfl, by decide⟩

/-- C5, amended: for every code payload that the normalizers' other cleanup
steps leave alone — no backticks, no byte-order mark, no line breaks other
than `\n`, no trailing `}` without some `{`, and (for the client variant)
no import / from-import lines — normalizing the fenced wrapping
``` ```python\n<code>\n``` ``` returns exactly the payload with its
surrounding whitespace trimmed, under both `executor._normalize` and
`llm_client._normalize_code`. -/
theorem c5_normalizer_round_trip_amended (code : String)
    (hbt : backtickChar ∉ code.data)
    (hnl : ∀ c ∈ code.data, isBreakChar c = true → c = '\n')
    (hbom : bomChar ∉ code.data)
    (hbr : lbraceChar ∈ code.data ∨ (pyStrip code.data).reverse.head? ≠ some rbraceChar)
    (himp : ∀ line ∈ (pyStrip code.data).splitOn '\n', LlmClient.isImportLine line = false) :
    Executor.normalize ("```python\n" ++ code ++ "\n```") = ⟨pyStrip code.data⟩ ∧
    LlmClient.normalizeCode ("```python\n" ++ code ++ "\n```") = ⟨pyStrip code.data⟩ := by
  have hdata : ("```python\n" ++ code ++ "\n```").data =
      "```python\n".data ++ (code.data ++ "\n```".data) := by
    rw [String.data_append, String.data_append, List.append_assoc]
  have hbr' : lbraceChar ∈ code.data ∨
      ∀ c r, (pyStrip code.data).reverse = c :: r → c ≠ rbraceChar := by
    rcases hbr with h | h
    · exact Or.inl h
    · refine Or.inr (fun c r hc he => h ?_)
      rw [hc, he]
      rfl
  constructor
  · show (⟨Executor.normalizeL ("```python\n" ++ code ++ "\n```").data⟩ : String) = _
    rw [hdata, executor_normalize_wrap code.data hbt hnl hbom hbr']
  · show (⟨LlmClient.normalizeCodeL ("```python\n" ++ code ++ "\n```").data⟩ : String) = _
    rw [hdata, client_normalize_wrap code.data hbt hnl hbom hbr' himp]

/-- C5, witness: the payload `doc.recompute()` round-trips exactly through
both normalizers. -/
theorem c5_normalizer_round_trip_witness :
    Executor.normalize ("```python\n" ++ "doc.recompute()" ++ "\n```") = "doc.recompute()" ∧
    LlmClient.normalizeCode ("```python\n" ++ "doc.recompute()" ++ "\n```") =
      "doc.recompute()" := by
  obtain ⟨h1, h2⟩ := c5_normalizer_round_trip_amended "doc.recompute()"
    (by decide) (by decide) (by decide) (Or.inr (by decide)) (by decide)
  exact ⟨h1.trans (by decide), h2.trans (by decide)⟩

end Idaia

namespace Idaia

/-! ## Claim C1 -/

/-- C1, counterexample: for the chat content
``` ```json\n{"code":"x=1"}\n``` ``` the claim says the recovery ladder
yields the code payload `x=1`; it does not — `ask_llm` returns the fenced
block's JSON text itself. -/
theorem c1_json_recovery_counterexample :
    LlmClient.ask_llm "make a cube" LlmClient.DEFAULT_OLLAMA_URL LlmClient.DEFAULT_MODEL
      0 20 none
      (.ok (.obj [("message", .obj [("content",
        .str "```json\n\x7b\"code\":\"x=1\"\x7d\n```")])])) ≠ .ok "x=1" := by
  intro h
  have he : LlmClient.ask_llm "make a cube" LlmClient.DEFAULT_OLLAMA_URL
      LlmClient.DEFAULT_MODEL 0 20 none
      (.ok (.obj [("message", .obj [("content",
        .str "```json\n\x7b\"code\":\"x=1\"\x7d\n```")])])) =
      .ok "\x7b\"code\":\"x=1\"\x7d" := rfl
  rw [he] at h
  injection h with h'
  exact absurd h' (by decide)

/-- C1, amended: on that content the direct parse and the strip-and-reparse
both fail, and the fenced-block extraction wraps the block's contents
(minus the `json` language-tag line) as the code payload without parsing
it, so `ask_llm` returns the string `{"code":"x=1"}`, not `x=1`. -/
theorem c1_json_recovery_amended :
    LlmClient.recoverInner "```json\n\x7b\"code\":\"x=1\"\x7d\n```" =
      .ok (.obj [("code", .str "\x7b\"code\":\"x=1\"\x7d\n")]) ∧
    LlmClient.ask_llm "make a cube" LlmClient.DEFAULT_OLLAMA_URL LlmClient.DEFAULT_MODEL
      0 20 none
      (.ok (.obj [("message", .obj [("content",
        .str "```json\n\x7b\"code\":\"x=1\"\x7d\n```")])])) =
      .ok "\x7b\"code\":\"x=1\"\x7d" :=
  ⟨rfl, rfl⟩

/-! ## Claim C6 -/

/-- C6: with `max_retries = 2` and a transport raising a timeout on every
attempt, `_call_llm` performs exactly 2 HTTP attempts, and finally raises
the error naming the timeout and suggesting a larger timeout or a faster
model. -/
theorem c6_retry_accounting (cfg : AIAgent.Config) (tr : ℕ → AIAgent.TransportOutcome)
    (hmax : cfg.max_retries = 2) (htr : ∀ n, tr n = .timeout) :
    AIAgent.call_llm cfg tr =
      (2, .error ("Request timed out after " ++ toString cfg.timeout ++
        " seconds. Try increasing timeout in AI settings or using a faster model.")) := by
  unfold AIAgent.call_llm
  rw [hmax]
  unfold AIAgent.callLlmAux
  rw [htr 0]
  simp only [hmax]
  norm_num
  unfold AIAgent.callLlmAux
  rw [htr 1]
  simp only [hmax]
  norm_num

/-- C6, witness: the default configuration (whose `max_retries` is 2 and
whose `timeout` is 120) with an always-timing-out transport. -/
theorem c6_retry_accounting_witness :
    AIAgent.call_llm {} (fun _ => .timeout) =
      (2, .error "Request timed out after 120 seconds. Try increasing timeout in AI settings or using a faster model.") := by
  have h := c6_retry_accounting {} (fun _ => .timeout) rfl (fun _ => rfl)
  exact h.trans (by rfl)

/-! ## Claim C7 -/

/-- C7, counterexample: the claim says both extractors return an empty
mapping when no numeric pattern matches; on `"hello"` no pattern matches,
yet `AIAgent._extract_dimensions` returns its default mapping
`length = width = height = 10`, which is not empty. -/
theorem c7_empty_dimensions_counterexample :
    Extract.searchXyzL ("hello".data.map Char.toLower) = none ∧
    (∀ kw ∈ Extract.namedKeywords,
      Extract.searchNamedL kw.data ("hello".data.map Char.toLower) = none) ∧
    AIAgent.extract_dimensions "hello" = [("length", 10), ("width", 10), ("height", 10)] ∧
    AIAgent.extract_dimensions "hello" ≠ [] :=
  ⟨rfl, by decide, by decide, by decide⟩

/-- C7, amended: when no numeric dimension pattern matches,
`PromptParser.extract_dimensions` returns the empty mapping (not null),
while `AIAgent._extract_dimensions` returns its default mapping
`length = width = height = 10` (also not null). -/
theorem c7_empty_dimensions_amended (text : String)
    (hx1 : Extract.searchXyzL text.data = none)
    (hn1 : ∀ kw ∈ Extract.namedKeywords, Extract.searchNamedL kw.data text.data = none)
    (hx2 : Extract.searchXyzL (text.data.map Char.toLower) = none)
    (hn2 : ∀ kw ∈ Extract.namedKeywords,
      Extract.searchNamedL kw.data (text.data.map Char.toLower) = none) :
    PromptParser.extract_dimensions text = [] ∧
    AIAgent.extract_dimensions text = [("length", 10), ("width", 10), ("height", 10)] := by
  constructor
  · unfold PromptParser.extract_dimensions Extract.extractCore
    rw [hx1]
    simp only [Extract.namedKeywords, List.foldl_cons, List.foldl_nil,
      hn1 "diameter" (by decide), hn1 "radius" (by decide), hn1 "height" (by decide),
      hn1 "length" (by decide), hn1 "width" (by decide)]
  · unfold AIAgent.extract_dimensions Extract.extractCore
    rw [hx2]
    simp only [Extract.namedKeywords, List.foldl_cons, List.foldl_nil,
      hn2 "diameter" (by decide), hn2 "radius" (by decide), hn2 "height" (by decide),
      hn2 "length" (by decide), hn2 "width" (by decide)]

/-- C7, witness: the text `"hello"` matches no pattern; the regex-table
extractor returns the empty mapping and the agent extractor its
defaults. -/
theorem c7_empty_dimensions_witness :
    PromptParser.extract_dimensions "hello" = [] ∧
    AIAgent.extract_dimensions "hello" = [("length", 10), ("width", 10), ("height", 10)] :=
  c7_empty_dimensions_amended "hello" rfl (by decide) rfl (by decide)

end Idaia

namespace Idaia

/-! ## Helper lemmas: the compound dimension pattern -/

theorem isUnitChar_not_ws (c : Char) (h : Extract.isUnitChar c = true) : isPyWs c = false := by
  rw [Extract.isUnitChar, Bool.or_eq_true, Bool.or_eq_true] at h
  rcases h with (h | h) | h
  · rw [Bool.eq_false_iff]
    intro hw
    rw [isPyWs] at hw
    unfold Char.isLower at h
    rw [Bool.and_eq_true, decide_eq_true_eq, decide_eq_true_eq] at h
    simp only [Bool.or_eq_true, decide_eq_true_eq] at hw
    rcases hw with ((((hc | hc) | hc) | hc) | hc) | hc <;>
      (subst hc; revert h; decide)
  · rw [decide_eq_true_eq] at h
    subst h
    rfl
  · rw [decide_eq_true_eq] at h
    subst h
    rfl

theorem parseNumAt_digits (d rest : List Char) (hne : d ≠ [])
    (hd : ∀ c ∈ d, c.isDigit = true)
    (hrest : ∀ c r, rest = c :: r → c.isDigit = false ∧ c ≠ '.') :
    Extract.parseNumAt (d ++ rest) = some (Extract.numValOfDigits d, rest) := by
  have htake : (d ++ rest).takeWhile Char.isDigit = d := by
    rw [List.takeWhile_append_of_pos hd]
    cases hr : rest with
    | nil => simp
    | cons c r =>
      rw [List.takeWhile_cons_of_neg (by simp [(hrest c r hr).1])]
      simp
  unfold Extract.parseNumAt
  rw [htake]
  rw [if_neg (by simpa using hne)]
  have hdrop : (d ++ rest).drop d.length = rest := List.drop_left d rest
  rw [hdrop]
  cases hr : rest with
  | nil => rfl
  | cons c r =>
    simp only [if_neg (hrest c r hr).2]

theorem xyzAt_compound (d1 d2 d3 : List Char) (u : String)
    (h1 : d1 ≠ []) (h2 : d2 ≠ []) (h3 : d3 ≠ [])
    (hd1 : ∀ c ∈ d1, c.isDigit = true) (hd2 : ∀ c ∈ d2, c.isDigit = true)
    (hd3 : ∀ c ∈ d3, c.isDigit = true)
    (hu : ∀ c ∈ u.data, Extract.isUnitChar c = true) :
    Extract.xyzAt (d1 ++ 'x' :: (d2 ++ 'x' :: (d3 ++ ' ' :: u.data))) =
      some (Extract.numValOfDigits d1, Extract.numValOfDigits d2,
        Extract.numValOfDigits d3, u) := by
  have hp1 := parseNumAt_digits d1 ('x' :: (d2 ++ 'x' :: (d3 ++ ' ' :: u.data))) h1 hd1
    (by intro c r h; rw [List.cons.injEq] at h; rw [← h.1]; exact ⟨rfl, by decide⟩)
  have hp2 := parseNumAt_digits d2 ('x' :: (d3 ++ ' ' :: u.data)) h2 hd2
    (by intro c r h; rw [List.cons.injEq] at h; rw [← h.1]; exact ⟨rfl, by decide⟩)
  have hp3 := parseNumAt_digits d3 (' ' :: u.data) h3 hd3
    (by intro c r h; rw [List.cons.injEq] at h; rw [← h.1]; exact ⟨rfl, by decide⟩)
  have hws : (' ' :: u.data).dropWhile isPyWs = u.data := by
    rw [List.dropWhile_cons_of_pos (by rfl)]
    cases hu2 : u.data with
    | nil => rfl
    | cons c r =>
      rw [List.dropWhile_cons_of_neg]
      rw [isUnitChar_not_ws c (hu c (by rw [hu2]; exact List.mem_cons_self c r))]
      simp
  unfold Extract.xyzAt
  simp only [hp1, hp2, hp3, if_pos rfl, hws,
    takeWhile_all_true Extract.isUnitChar u.data hu, if_true]

theorem searchXyzL_cons_some (c : Char) (r : List Char) (v : ℚ × ℚ × ℚ × String)
    (h : Extract.xyzAt (c :: r) = some v) : Extract.searchXyzL (c :: r) = some v := by
  unfold Extract.searchXyzL
  rw [h]

theorem startsWithL_mem (w : List Char) :
    ∀ l, startsWithL w l = true → ∀ c ∈ w, c ∈ l := by
  induction w with
  | nil => intro l _ c hc; simp at hc
  | cons p ps ih =>
    intro l h c hc
    cases l with
    | nil => simp [startsWithL] at h
    | cons a as =>
      rw [startsWithL, Bool.and_eq_true, decide_eq_true_eq] at h
      rcases List.mem_cons.mp hc with h1 | h1
      · rw [h1, ← h.1]
        exact List.mem_cons_self p as
      · exact List.mem_cons_of_mem a (ih as h.2 c h1)

theorem searchNamedL_none (kw : List Char) (c0 : Char) (hc0 : c0 ∈ kw) :
    ∀ l, c0 ∉ l → Extract.searchNamedL kw l = none := by
  intro l
  induction l with
  | nil => intro _; rfl
  | cons c r ih =>
    intro hmem
    have hsw : startsWithL kw (c :: r) = false := by
      rw [Bool.eq_false_iff]
      intro hsw
      exact hmem (startsWithL_mem kw (c :: r) hsw c0 hc0)
    unfold Extract.searchNamedL Extract.namedAt
    rw [hsw]
    simp only [Bool.false_eq_true, if_false]
    exact ih (fun hm => hmem (List.mem_cons_of_mem c hm))

theorem toLower_eq_self_of_toNat (c : Char) (h : c.toNat < 65 ∨ 90 < c.toNat) :
    c.toLower = c := by
  rw [show c.toLower =
    if c.toNat ≥ 65 ∧ c.toNat ≤ 90 then Char.ofNat (c.toNat + 32) else c from rfl]
  rw [if_neg]
  omega

theorem isDigit_toNat (c : Char) (h : c.isDigit = true) : c.toNat ≤ 57 := by
  unfold Char.isDigit at h
  rw [Bool.and_eq_true, decide_eq_true_eq, decide_eq_true_eq] at h
  exact h.2

theorem isUnitChar_toLower (c : Char) (h : Extract.isUnitChar c = true) : c.toLower = c := by
  rw [Extract.isUnitChar, Bool.or_eq_true, Bool.or_eq_true] at h
  apply toLower_eq_self_of_toNat
  rcases h with (h | h) | h
  · unfold Char.isLower at h
    rw [Bool.and_eq_true, decide_eq_true_eq, decide_eq_true_eq] at h
    right
    have : (97 : UInt32) ≤ c.val := h.1
    exact lt_of_lt_of_le (by decide) this
  · rw [decide_eq_true_eq] at h
    subst h
    left
    decide
  · rw [decide_eq_true_eq] at h
    subst h
    left
    decide

end Idaia

namespace Idaia

/-! ## Claim C4 -/

/-- C4: for a dimension string of the compound form `NxNxN unit` — the unit
a (possibly empty) run of unit characters avoiding the letters of the
named keywords, which covers every table unit, the symbol variants, the
absent unit and unknown units (factor 1, i.e. mm) — both
`PromptParser.extract_dimensions` and `AIAgent._extract_dimensions` return
exactly length, width and height equal to each parsed number times the
unit factor. -/
theorem c4_xyz_extraction (d1 d2 d3 : List Char) (u : String)
    (h1 : d1 ≠ []) (h2 : d2 ≠ []) (h3 : d3 ≠ [])
    (hd1 : ∀ c ∈ d1, c.isDigit = true) (hd2 : ∀ c ∈ d2, c.isDigit = true)
    (hd3 : ∀ c ∈ d3, c.isDigit = true)
    (hu : ∀ c ∈ u.data, Extract.isUnitChar c = true ∧ c ∉ (['a', 'g', 'l', 'w'] : List Char)) :
    PromptParser.extract_dimensions ⟨d1 ++ 'x' :: (d2 ++ 'x' :: (d3 ++ ' ' :: u.data))⟩ =
      [("length", Extract.numValOfDigits d1 * Extract.unitFactor u),
       ("width", Extract.numValOfDigits d2 * Extract.unitFactor u),
       ("height", Extract.numValOfDigits d3 * Extract.unitFactor u)] ∧
    AIAgent.extract_dimensions ⟨d1 ++ 'x' :: (d2 ++ 'x' :: (d3 ++ ' ' :: u.data))⟩ =
      [("length", Extract.numValOfDigits d1 * Extract.unitFactor u),
       ("width", Extract.numValOfDigits d2 * Extract.unitFactor u),
       ("height", Extract.numValOfDigits d3 * Extract.unitFactor u)] := by
  set L : List Char := d1 ++ 'x' :: (d2 ++ 'x' :: (d3 ++ ' ' :: u.data)) with hL
  have hxyz := xyzAt_compound d1 d2 d3 u h1 h2 h3 hd1 hd2 hd3 (fun c hc => (hu c hc).1)
  have hsx : Extract.searchXyzL L = some (Extract.numValOfDigits d1,
      Extract.numValOfDigits d2, Extract.numValOfDigits d3, u) := by
    cases hd : d1 with
    | nil => exact absurd hd h1
    | cons c0 r0 =>
      rw [hL, hd]
      rw [hd] at hxyz
      exact searchXyzL_cons_some c0 _ _ hxyz
  have habs : ∀ c0 : Char, c0.isDigit = false → c0 ≠ 'x' → c0 ≠ ' ' → c0 ∉ u.data →
      c0 ∉ L := by
    intro c0 hdig hx hsp hu0 hmem
    rw [hL] at hmem
    simp only [List.mem_append, List.mem_cons] at hmem
    rcases hmem with h | h | h | h | h | h | h
    · rw [hd1 c0 h] at hdig; cases hdig
    · exact hx h
    · rw [hd2 c0 h] at hdig; cases hdig
    · exact hx h
    · rw [hd3 c0 h] at hdig; cases hdig
    · exact hsp h
    · exact hu0 h
  have hua : ∀ c0 : Char, c0 ∈ (['a', 'g', 'l', 'w'] : List Char) → c0 ∉ u.data :=
    fun c0 hin hm => (hu c0 hm).2 hin
  have hdia := searchNamedL_none "diameter".data 'a' (by decide) L
    (habs 'a' (by decide) (by decide) (by decide) (hua 'a' (by decide)))
  have hrad := searchNamedL_none "radius".data 'a' (by decide) L
    (habs 'a' (by decide) (by decide) (by decide) (hua 'a' (by decide)))
  have hhei := searchNamedL_none "height".data 'g' (by decide) L
    (habs 'g' (by decide) (by decide) (by decide) (hua 'g' (by decide)))
  have hlen := searchNamedL_none "length".data 'l' (by decide) L
    (habs 'l' (by decide) (by decide) (by decide) (hua 'l' (by decide)))
  have hwid := searchNamedL_none "width".data 'w' (by decide) L
    (habs 'w' (by decide) (by decide) (by decide) (hua 'w' (by decide)))
  have hcore : ∀ init, Extract.extractCore init L =
      [("length", Extract.numValOfDigits d1 * Extract.unitFactor u),
       ("width", Extract.numValOfDigits d2 * Extract.unitFactor u),
       ("height", Extract.numValOfDigits d3 * Extract.unitFactor u)] := by
    intro init
    unfold Extract.extractCore
    simp only [hsx, Extract.namedKeywords, List.foldl_cons, List.foldl_nil,
      hdia, hrad, hhei, hlen, hwid]
  have hlower : L.map Char.toLower = L := by
    have hcc : ∀ c ∈ L, Char.toLower c = c := by
      intro c hc
      rw [hL] at hc
      simp only [List.mem_append, List.mem_cons] at hc
      rcases hc with h | h | h | h | h | h | h
      · exact toLower_eq_self_of_toNat c (Or.inl (by
          have := isDigit_toNat c (hd1 c h); omega))
      · rw [h]; rfl
      · exact toLower_eq_self_of_toNat c (Or.inl (by
          have := isDigit_toNat c (hd2 c h); omega))
      · rw [h]; rfl
      · exact toLower_eq_self_of_toNat c (Or.inl (by
          have := isDigit_toNat c (hd3 c h); omega))
      · rw [h]; rfl
      · exact isUnitChar_toLower c (hu c h).1
    calc L.map Char.toLower = L.map id := List.map_congr_left hcc
    _ = L := List.map_id L
  constructor
  · show Extract.extractCore [] L = _
    exact hcore []
  · show Extract.extractCore [("length", 10), ("width", 10), ("height", 10)]
      (L.map Char.toLower) = _
    rw [hlower]
    exact hcore _

/-- C4, witness: `"8x8x8 cm"` yields length, width and height 80 in both
extractors. -/
theorem c4_xyz_extraction_witness :
    PromptParser.extract_dimensions "8x8x8 cm" =
      [("length", 80), ("width", 80), ("height", 80)] ∧
    AIAgent.extract_dimensions "8x8x8 cm" =
      [("length", 80), ("width", 80), ("height", 80)] := by
  obtain ⟨hp, ha⟩ := c4_xyz_extraction ['8'] ['8'] ['8'] "cm"
    (by decide) (by decide) (by decide) (by decide) (by decide) (by decide) (by decide)
  have hnum : Extract.numValOfDigits ['8'] * Extract.unitFactor "cm" = 80 := by
    rw [show Extract.unitFactor "cm" = 10 from rfl]
    norm_num [Extract.numValOfDigits, show '8'.toNat = 56 from rfl]
  have hstr : ("8x8x8 cm" : String) =
      ⟨['8'] ++ 'x' :: (['8'] ++ 'x' :: (['8'] ++ ' ' :: "cm".data))⟩ := rfl
  rw [hstr]
  rw [hp, ha, hnum]
  exact ⟨rfl, rfl⟩

end Idaia

namespace Idaia

/-! ## Claim C9 -/

/-- C9: after any `process_prompt` call on a history within the cap, the
history still has at most 5 entries; on a successful LLM call the new
entry is appended in order (the resulting history is a suffix of the old
history plus the new entry, of length `min (n+1) 5`, so when the cap would
be exceeded exactly the most recent 5 remain), and on an exception the
history is unchanged. -/
theorem c9_history_bound {α : Type} (hist : List (AIAgent.HistEntry α)) (prompt : String)
    (llm : Except String String) (parse : String → α) (now : ℕ)
    (hlen : hist.length ≤ 5) :
    (AIAgent.process_prompt hist prompt llm parse now).1.length ≤ 5 ∧
    (∀ r, llm = .ok r →
      (AIAgent.process_prompt hist prompt llm parse now).1 <:+
        hist ++ [(⟨prompt, r, now, parse r⟩ : AIAgent.HistEntry α)] ∧
      (AIAgent.process_prompt hist prompt llm parse now).1.length =
        min (hist.length + 1) 5) ∧
    (∀ e, llm = .error e → (AIAgent.process_prompt hist prompt llm parse now).1 = hist) := by
  cases llm with
  | error e =>
    exact ⟨hlen, fun r h => Except.noConfusion h, fun e' _ => rfl⟩
  | ok r =>
    have hproc : (AIAgent.process_prompt hist prompt (.ok r) parse now).1 =
        if (hist ++ [(⟨prompt, r, now, parse r⟩ : AIAgent.HistEntry α)]).length > 5 then
          (hist ++ [(⟨prompt, r, now, parse r⟩ : AIAgent.HistEntry α)]).drop
            ((hist ++ [(⟨prompt, r, now, parse r⟩ : AIAgent.HistEntry α)]).length - 5)
        else hist ++ [(⟨prompt, r, now, parse r⟩ : AIAgent.HistEntry α)] := rfl
    by_cases hgt : (hist ++ [(⟨prompt, r, now, parse r⟩ : AIAgent.HistEntry α)]).length > 5
    · have hlen5 : hist.length = 5 := by
        rw [List.length_append, List.length_singleton] at hgt
        omega
      rw [hproc, if_pos hgt]
      have hdl : ((hist ++ [(⟨prompt, r, now, parse r⟩ : AIAgent.HistEntry α)]).drop
          ((hist ++ [(⟨prompt, r, now, parse r⟩ : AIAgent.HistEntry α)]).length - 5)).length
          = 5 := by
        rw [List.length_drop, List.length_append, List.length_singleton, hlen5]
      refine ⟨by rw [hdl], fun r' hr' => ?_, fun e he => Except.noConfusion he⟩
      have hrr : r = r' := Except.ok.inj hr'
      subst hrr
      exact ⟨List.drop_suffix _ _, by rw [hdl, hlen5]; omega⟩
    · rw [hproc, if_neg hgt]
      rw [List.length_append, List.length_singleton] at hgt
      refine ⟨?_, fun r' hr' => ?_, fun e he => Except.noConfusion he⟩
      · rw [List.length_append, List.length_singleton]
        omega
      · have hrr : r = r' := Except.ok.inj hr'
        subst hrr
        refine ⟨List.suffix_refl _, ?_⟩
        rw [List.length_append, List.length_singleton]
        omega

/-- C9, witness: one successful call on an empty history appends the entry
and stays within the cap. -/
theorem c9_history_bound_witness :
    (AIAgent.process_prompt ([] : List (AIAgent.HistEntry Unit)) "make a box"
      (.ok "resp") (fun _ => ()) 0).1.length ≤ 5 ∧
    (AIAgent.process_prompt ([] : List (AIAgent.HistEntry Unit)) "make a box"
      (.ok "resp") (fun _ => ()) 0).1.length = min 1 5 := by
  obtain ⟨ha, hb, _⟩ := c9_history_bound ([] : List (AIAgent.HistEntry Unit)) "make a box"
    (.ok "resp") (fun _ => ()) 0 (by decide)
  exact ⟨ha, (hb "resp" rfl).2⟩

/-! ## Claim C10 -/

/-- C10: `ping` is total and boolean — it returns `True` exactly when the
underlying `ask_llm` call (with user text `ping` and temperature 0)
succeeds, and `False` exactly when `ask_llm` fails with any of its errors
(invalid base URL, transport failure, bad payload shape, non-JSON content,
or missing `code` field), for every base URL, model, timeout, keep-alive
and transport outcome. -/
theorem c10_ping_never_raises (base_url model : String) (timeout : ℚ)
    (keep_alive : Option String) (transport : Except String JsonVal) :
    (LlmClient.ping base_url model timeout keep_alive transport = true ↔
      ∃ code, LlmClient.ask_llm "ping" base_url model 0 timeout keep_alive transport =
        .ok code) ∧
    (LlmClient.ping base_url model timeout keep_alive transport = false ↔
      ∃ e, LlmClient.ask_llm "ping" base_url model 0 timeout keep_alive transport =
        .error e) := by
  unfold LlmClient.ping
  cases h : LlmClient.ask_llm "ping" base_url model 0 timeout keep_alive transport with
  | ok c =>
    constructor
    · simp
    · simp
  | error e =>
    constructor
    · simp
    · simp

end Idaia

namespace Idaia

namespace ParametricManager

/-! ## Helper lemmas: decimal rendering and unique names -/

theorem charToNat_ofNat (n : ℕ) (h : n.isValidChar) : (Char.ofNat n).toNat = n := by
  unfold Char.ofNat
  rw [dif_pos h]
  rfl

theorem natDigitsAux_zero (n : ℕ) : natDigitsAux 0 n = [] := rfl

theorem natDigitsAux_succ (fuel n : ℕ) :
    natDigitsAux (fuel + 1) n =
      if n = 0 then [] else Char.ofNat (48 + n % 10) :: natDigitsAux fuel (n / 10) := rfl

theorem natDigitsAux_nil (fuel n : ℕ) (h : n ≤ fuel) :
    natDigitsAux fuel n = [] ↔ n = 0 := by
  cases fuel with
  | zero => simp [natDigitsAux]; omega
  | succ f =>
    constructor
    · intro he
      by_contra hn
      rw [natDigitsAux_succ, if_neg hn] at he
      cases he
    · intro hn
      rw [natDigitsAux_succ, if_pos hn]

theorem natDigitsAux_inj : ∀ fuel1 fuel2 n1 n2, n1 ≤ fuel1 → n2 ≤ fuel2 →
    natDigitsAux fuel1 n1 = natDigitsAux fuel2 n2 → n1 = n2 := by
  intro fuel1
  induction fuel1 with
  | zero =>
    intro fuel2 n1 n2 h1 h2 he
    have hn1 : n1 = 0 := by omega
    subst hn1
    have : natDigitsAux fuel2 n2 = [] := by
      rw [← he, natDigitsAux_zero]
    exact ((natDigitsAux_nil fuel2 n2 h2).mp this).symm
  | succ f ih =>
    intro fuel2 n1 n2 h1 h2 he
    by_cases hz1 : n1 = 0
    · subst hz1
      have : natDigitsAux fuel2 n2 = [] := by
        rw [← he, natDigitsAux_succ, if_pos rfl]
      exact ((natDigitsAux_nil fuel2 n2 h2).mp this).symm
    · cases fuel2 with
      | zero =>
        have hn2 : n2 = 0 := by omega
        subst hn2
        rw [natDigitsAux_succ, if_neg hz1, natDigitsAux_zero] at he
        cases he
      | succ f2 =>
        by_cases hz2 : n2 = 0
        · subst hz2
          rw [natDigitsAux_succ, if_neg hz1, natDigitsAux_succ, if_pos rfl] at he
          cases he
        · rw [natDigitsAux_succ, if_neg hz1, natDigitsAux_succ, if_neg hz2] at he
          rw [List.cons.injEq] at he
          have hmod : n1 % 10 = n2 % 10 := by
            have hv1 : (Char.ofNat (48 + n1 % 10)).toNat = 48 + n1 % 10 :=
              charToNat_ofNat _ (Or.inl (by omega))
            have hv2 : (Char.ofNat (48 + n2 % 10)).toNat = 48 + n2 % 10 :=
              charToNat_ofNat _ (Or.inl (by omega))
            have := congrArg Char.toNat he.1
            rw [hv1, hv2] at this
            omega
          have hdiv : n1 / 10 = n2 / 10 := by
            apply ih f2 (n1 / 10) (n2 / 10) (by omega) (by omega) he.2
          omega

theorem natRepr_inj (j k : ℕ) (hj : 1 ≤ j) (hk : 1 ≤ k)
    (h : natRepr j = natRepr k) : j = k := by
  rw [natRepr, if_neg (by omega), natRepr, if_neg (by omega)] at h
  have hd : (natDigitsAux j j).reverse = (natDigitsAux k k).reverse := congrArg String.data h
  have := List.reverse_injective hd
  exact natDigitsAux_inj j k j k (le_refl j) (le_refl k) this

theorem candidate_inj (base : String) (j k : ℕ) (hj : 1 ≤ j) (hk : 1 ≤ k)
    (h : candidate base j = candidate base k) : j = k := by
  unfold candidate at h
  have hdata := congrArg String.data h
  rw [String.data_append, String.data_append, String.data_append, String.data_append,
    List.append_assoc, List.append_assoc] at hdata
  have h2 := List.append_cancel_left hdata
  have h3 := List.append_cancel_left h2
  exact natRepr_inj j k hj hk (by
    apply congrArg String.mk at h3
    simpa using h3)

theorem findUniqueAux_not_mem (existing : List String) (base : String) :
    ∀ fuel k, (∃ j, k ≤ j ∧ j < k + fuel ∧ candidate base j ∉ existing) →
      findUniqueAux existing base k fuel ∉ existing := by
  intro fuel
  induction fuel with
  | zero =>
    rintro k ⟨j, hj1, hj2, _⟩
    omega
  | succ f ih =>
    rintro k ⟨j, hj1, hj2, hj3⟩
    unfold findUniqueAux
    by_cases hc : existing.contains (candidate base k) = true
    · rw [if_pos hc]
      apply ih
      have hjk : j ≠ k := by
        intro he
        exact hj3 (he ▸ (by simpa using hc))
      exact ⟨j, by omega, by omega, hj3⟩
    · rw [if_neg hc]
      simpa using hc

theorem exists_free_candidate (existing : List String) (base : String) :
    ∃ j, 1 ≤ j ∧ j < 1 + (existing.length + 1) ∧ candidate base j ∉ existing := by
  by_contra h
  push_neg at h
  have hsub : ((List.range (existing.length + 1)).map (fun i => candidate base (i + 1)))
      ⊆ existing := by
    intro x hx
    simp only [List.mem_map, List.mem_range] at hx
    obtain ⟨i, hi, rfl⟩ := hx
    exact h (i + 1) (by omega) (by omega)
  have hnd : ((List.range (existing.length + 1)).map
      (fun i => candidate base (i + 1))).Nodup := by
    refine List.Nodup.map_on ?_ (List.nodup_range _)
    intro i _ j _ hij
    have := candidate_inj base (i + 1) (j + 1) (by omega) (by omega) hij
    omega
  have hle := (List.subperm_of_subset hnd hsub).length_le
  rw [List.length_map, List.length_range] at hle
  omega

theorem findUniqueName_not_mem (existing : List String) (base : String) :
    findUniqueName existing base ∉ existing := by
  unfold findUniqueName
  by_cases hc : existing.contains base = true
  · rw [if_pos hc]
    exact findUniqueAux_not_mem existing base (existing.length + 1) 1
      (exists_free_candidate existing base)
  · rw [if_neg hc]
    simpa using hc

theorem sanitizeChar_legal (c : Char) :
    (sanitizeChar c).isAlphanum = true ∨ sanitizeChar c = '_' := by
  unfold sanitizeChar
  by_cases hc : (c.isAlphanum || c = '_') = true
  · rw [if_pos hc]
    rw [Bool.or_eq_true, decide_eq_true_eq] at hc
    rcases hc with h | h
    · exact Or.inl h
    · exact Or.inr h
  · rw [if_neg hc]
    exact Or.inr rfl

theorem sanitizeBase_legal (name : String) :
    ∀ c ∈ (sanitizeBase name).data, c.isAlphanum = true ∨ c = '_' := by
  intro c hc
  have hstrip : ∀ x ∈ stripBy (fun ch => ch = '_') (name.data.map sanitizeChar),
      x.isAlphanum = true ∨ x = '_' := by
    intro x hx
    have hm := mem_of_mem_stripBy _ _ x hx
    rw [List.mem_map] at hm
    obtain ⟨c0, _, rfl⟩ := hm
    exact sanitizeChar_legal c0
  unfold sanitizeBase at hc
  by_cases hif : ((stripBy (fun ch => ch = '_') (name.data.map sanitizeChar)).isEmpty
      || (stripBy (fun ch => ch = '_') (name.data.map sanitizeChar)).headI.isDigit) = true
  · rw [if_pos hif] at hc
    have hc2 : c ∈ 'v' :: 'a' :: 'r' :: '_' ::
        stripBy (fun ch => ch = '_') (name.data.map sanitizeChar) := hc
    simp only [List.mem_cons] at hc2
    rcases hc2 with rfl | rfl | rfl | rfl | h
    · exact Or.inl (by decide)
    · exact Or.inl (by decide)
    · exact Or.inl (by decide)
    · exact Or.inr rfl
    · exact hstrip c h
  · rw [if_neg hif] at hc
    exact hstrip c hc

theorem natDigitsAux_legal : ∀ fuel n, ∀ c ∈ natDigitsAux fuel n, c.isAlphanum = true := by
  intro fuel
  induction fuel with
  | zero => intro n c hc; cases hc
  | succ f ih =>
    intro n c hc
    by_cases hz : n = 0
    · rw [natDigitsAux_succ, if_pos hz] at hc
      cases hc
    · rw [natDigitsAux_succ, if_neg hz] at hc
      rcases List.mem_cons.mp hc with h | h
      · subst h
        have h10 : n % 10 < 10 := Nat.mod_lt n (by omega)
        have hval : (Char.ofNat (48 + n % 10)).toNat = 48 + n % 10 :=
          charToNat_ofNat _ (Or.inl (by omega))
        set d := n % 10 with hd
        interval_cases d <;> decide
      · exact ih (n / 10) c h

theorem findUniqueName_legal (existing : List String) (name : String) :
    ∀ c ∈ (findUniqueName existing (sanitizeBase name)).data,
      c.isAlphanum = true ∨ c = '_' := by
  have hcand : ∀ k, 1 ≤ k → ∀ c ∈ (candidate (sanitizeBase name) k).data,
      c.isAlphanum = true ∨ c = '_' := by
    intro k hk c hc
    unfold candidate at hc
    rw [String.data_append, String.data_append, List.append_assoc, List.mem_append] at hc
    rcases hc with h | h
    · exact sanitizeBase_legal name c h
    · rw [List.mem_append] at h
      rcases h with h | h
      · have h1 : c ∈ ['_'] := h
        exact Or.inr (by simpa using h1)
      · rw [natRepr, if_neg (by omega)] at h
        have : c ∈ (natDigitsAux k k).reverse := h
        rw [List.mem_reverse] at this
        exact Or.inl (natDigitsAux_legal k k c this)
  have haux : ∀ fuel k, 1 ≤ k →
      ∀ c ∈ (findUniqueAux existing (sanitizeBase name) k fuel).data,
        c.isAlphanum = true ∨ c = '_' := by
    intro fuel
    induction fuel with
    | zero => intro k hk c hc; exact sanitizeBase_legal name c hc
    | succ f ih =>
      intro k hk c hc
      unfold findUniqueAux at hc
      by_cases hcon : existing.contains (candidate (sanitizeBase name) k) = true
      · rw [if_pos hcon] at hc
        exact ih (k + 1) (by omega) c hc
      · rw [if_neg hcon] at hc
        exact hcand k hk c hc
  unfold findUniqueName
  by_cases hc : existing.contains (sanitizeBase name) = true
  · rw [if_pos hc]
    exact haux (existing.length + 1) 1 (le_refl 1)
  · rw [if_neg hc]
    exact sanitizeBase_legal name

end ParametricManager

end Idaia

namespace Idaia

/-- C8, counterexample to the claim as stated: `create_variable` on the name
`"a!"` returns `"a"`, not the character-for-character replacement `"a_"` that
the claim describes, because the source also strips leading and trailing
underscores from the sanitized name. -/
theorem c8_variable_names_counterexample :
    (ParametricManager.create_variable ⟨[]⟩ "a!").1 = "a" ∧
    ParametricManager.claimedSanitize "a!" = "a_" ∧
    (ParametricManager.create_variable ⟨[]⟩ "a!").1 ≠ ParametricManager.claimedSanitize "a!" :=
  ⟨by decide, by decide, by decide⟩

/-- C8, amended: on a spreadsheet whose variable names are pairwise distinct,
`create_variable` returns a name absent from the sheet, appends exactly that
name, keeps the names pairwise distinct, and the returned name uses only
characters from `[a-zA-Z0-9_]` (illegal characters of the request having been
replaced by underscores, with edge adjustments and numeric-suffix
disambiguation). -/
theorem c8_variable_names_amended (st : ParametricManager.SheetState) (name : String)
    (hnd : st.varNames.Nodup) :
    (ParametricManager.create_variable st name).1 ∉ st.varNames ∧
    (ParametricManager.create_variable st name).2.varNames
      = st.varNames ++ [(ParametricManager.create_variable st name).1] ∧
    (ParametricManager.create_variable st name).2.varNames.Nodup ∧
    ∀ c ∈ (ParametricManager.create_variable st name).1.data,
      c.isAlphanum = true ∨ c = '_' := by
  have hv := ParametricManager.findUniqueName_not_mem st.varNames
    (ParametricManager.sanitizeBase name)
  refine ⟨hv, rfl, ?_, ?_⟩
  · show (st.varNames ++
      [ParametricManager.findUniqueName st.varNames (ParametricManager.sanitizeBase name)]).Nodup
    rw [List.nodup_append]
    refine ⟨hnd, List.nodup_singleton _, ?_⟩
    intro a ha hb
    rw [List.mem_singleton] at hb
    subst hb
    exact hv ha
  · intro c hc
    exact ParametricManager.findUniqueName_legal st.varNames name c hc

/-- Witness for C8 at a concrete spreadsheet: creating `"box length"` on a
sheet already holding `"box_length"` yields a fresh, legal, appended name. -/
theorem c8_variable_names_witness :
    (ParametricManager.create_variable ⟨["box_length"]⟩ "box length").1 ∉ ["box_length"] ∧
    (ParametricManager.create_variable ⟨["box_length"]⟩ "box length").2.varNames
      = ["box_length"] ++ [(ParametricManager.create_variable ⟨["box_length"]⟩ "box length").1] ∧
    (ParametricManager.create_variable ⟨["box_length"]⟩ "box length").2.varNames.Nodup ∧
    ∀ c ∈ (ParametricManager.create_variable ⟨["box_length"]⟩ "box length").1.data,
      c.isAlphanum = true ∨ c = '_' :=
  c8_variable_names_amended ⟨["box_length"]⟩ "box length" (by decide)

end Idaia
